import Mathlib

/-!
Maximum subarray and subset sum (`poly_exp.hpp`).

A shallow embedding of the three algorithms of `poly_exp.hpp` and of the
`summed_span` value type, followed by theorems about them.

Conventions of the embedding.

* A C++ `int` is an `int32`: an integer in `[-2147483648, 2147483647]`.
  Addition of two `int`s wraps around modulo `2^32` (`wrap32`), which is
  what the usual implementations do on signed overflow.  Comparisons compare
  the values.  The literal `-2147483647` of the source is kept.
* A `std::vector<int>` is a `List int32`; an iterator into the input vector is
  its offset from `input.begin()`, a natural number.
* Sums in the statements (`range_sum`) are sums of integers in `ℤ`; the value
  the code computes for a range is `machine_sum`, the `int` that sum wraps to.
* A call either returns a value or ends in a `Failure`: a failed `assert`,
  an access the language leaves undefined (an iterator range whose end
  precedes its begin or lies outside the vector, an index outside the
  vector), or exhausted recursion fuel.
* The loop condition `i < std::pow(2, elements.size())` of `subset_sum_exh`
  compares a `uint64_t` with a `double`; the counter is converted to `double`
  first (IEEE-754 binary64, round to nearest, ties to even).  The conversion
  is embedded as `toDouble`, on natural numbers.
-/

namespace subarray

/-- The ways a call can end without returning a value. -/
inductive Failure where
  | assertion_failed
  | undefined_behaviour
  | out_of_fuel
  deriving DecidableEq, Repr

/-- The outcome of a call: a failure or a returned value. -/
abbrev Result (α : Type) := Except Failure α

/-- The `int` that an integer wraps to: the 32-bit value congruent to it
modulo `2^32`. -/
def wrap32 (x : Int) : Int :=
  (x + 2147483648) % 4294967296 - 2147483648

/-- The C++ type `int`: a 32-bit signed integer. -/
structure int32 where
  val : Int
  in_range : -2147483648 ≤ val ∧ val ≤ 2147483647

/-- The `int` an integer wraps to. -/
def int32.ofInt (x : Int) : int32 :=
  ⟨wrap32 x, by unfold wrap32; omega⟩

instance (n : Nat) : OfNat int32 n := ⟨int32.ofInt n⟩

instance : Zero int32 := ⟨int32.ofInt 0⟩

/-- Unary minus on `int`. -/
instance : Neg int32 := ⟨fun a => int32.ofInt (-a.val)⟩

/-- The operator `+` on `int`, wrapping on overflow. -/
instance : Add int32 := ⟨fun a b => int32.ofInt (a.val + b.val)⟩

/-- The operators `<` and `>` on `int`. -/
instance : LT int32 := ⟨fun a b => a.val < b.val⟩

instance (a b : int32) : Decidable (a < b) :=
  inferInstanceAs (Decidable (a.val < b.val))

instance : DecidableEq int32 := fun a b =>
  if h : a.val = b.val then
    isTrue (by cases a; cases b; simp only [int32.mk.injEq]; exact h)
  else
    isFalse (fun hab => h (by rw [hab]))

instance : Repr int32 := ⟨fun a n => reprPrec a.val n⟩

/-- The class `summed_span`: the begin and end iterators (as offsets into the
input vector) and the stored sum. -/
structure summed_span where
  begin_ : Nat
  end_ : Nat
  sum_ : int32
  deriving DecidableEq, Repr

/-- The member function `summed_span::size`. -/
def summed_span.size (s : summed_span) : Nat := s.end_ - s.begin_

/-- The call `std::accumulate(input.begin()+first, input.begin()+last, init)`:
the elements at offsets `first, ..., last-1` are added to `init` from left to
right.  The iterator range must be valid. -/
def accumulate (input : List int32) (first last : Nat) (init : int32) : Result int32 :=
  if first ≤ last ∧ last ≤ input.length then
    .ok (((input.drop first).take (last - first)).foldl (fun acc x => acc + x) init)
  else
    .error .undefined_behaviour

/-- The constructor `summed_span(begin, end, sum)` with its `assert(begin < end)`. -/
def summed_span.construct (b e : Nat) (sum : int32) : Result summed_span :=
  if b < e then .ok ⟨b, e, sum⟩ else .error .assertion_failed

/-- The delegating constructor `summed_span(begin, end)`: the sum is computed
by `std::accumulate` and passed to the three-argument constructor. -/
def summed_span.of_range (input : List int32) (b e : Nat) : Result summed_span := do
  let sum ← accumulate input b e 0
  summed_span.construct b e sum

/-! ## `max_subarray_exh` -/

/-- The body of the inner loop of `max_subarray_exh` at indices `i`, `j`,
acting on the current best pair `(b, e)`. -/
def exh_body (input : List int32) (i : Nat) (be : Nat × Nat) (j : Nat) : Result (Nat × Nat) := do
  let s ← accumulate input i j 0
  let t ← accumulate input be.1 be.2 0
  if s > t then pure (i, j) else pure be

/-- The inner loop `for (int j = i+1; j <= input.size(); j++)`. -/
def exh_inner (input : List int32) (be : Nat × Nat) (i : Nat) : Result (Nat × Nat) :=
  (List.range' (i + 1) (input.length - i)).foldlM (exh_body input i) be

/-- The outer loop `for (int i = 0; i <= input.size()-1; i++)`. -/
def exh_outer (input : List int32) (be : Nat × Nat) : Result (Nat × Nat) :=
  (List.range' 0 input.length).foldlM (exh_inner input) be

/-- The function `max_subarray_exh`. -/
def max_subarray_exh (input : List int32) : Result summed_span :=
  if input.isEmpty then .error .assertion_failed
  else if input.length = 1 then summed_span.of_range input 0 input.length
  else do
    let be ← exh_outer input (0, 1)
    summed_span.of_range input be.1 be.2

/-! ## `max_subarray_dbh` -/

/-- One iteration of either scan of `maximum_subarray_crossing`: the state is
the running `sum`, the best sum so far and the index that achieved it. -/
def crossing_step (input : List int32) (st : int32 × int32 × Nat) (i : Nat) :
    Result (int32 × int32 × Nat) :=
  match input[i]? with
  | none => .error .undefined_behaviour
  | some x =>
    let sum := st.1 + x
    if sum > st.2.1 then .ok (sum, sum, i) else .ok (sum, st.2.1, st.2.2)

/-- The function `maximum_subarray_crossing`: the first scan runs `i` from
`middle` down to `low`, the second from `middle+1` up to `high`. -/
def maximum_subarray_crossing (input : List int32) (low middle high : Nat) :
    Result (Nat × Nat) := do
  let l ← (List.range' low (middle + 1 - low)).reverse.foldlM (crossing_step input)
    (0, -2147483647, 0)
  let r ← (List.range' (middle + 1) (high - middle)).foldlM (crossing_step input)
    (0, -2147483647, 1)
  pure (l.2.2, r.2.2 + 1)

/-- The comparison `accumulate(p) > accumulate(q)` of the combine step. -/
def sum_gt (input : List int32) (p q : Nat × Nat) : Result Bool := do
  let a ← accumulate input p.1 p.2 0
  let b ← accumulate input q.1 q.2 0
  pure (decide (a > b))

/-- The combine step of `maximum_subarray_recursive`: the `if / else if / else`
chain, each condition a short-circuit conjunction. -/
def combine (input : List int32) (entirely_left entirely_right crossing : Nat × Nat) :
    Result (Nat × Nat) := do
  let c1 ← sum_gt input entirely_left entirely_right
  let c1 ← if c1 then sum_gt input entirely_left crossing else pure false
  if c1 then pure entirely_left
  else do
    let c2 ← sum_gt input entirely_right entirely_left
    let c2 ← if c2 then sum_gt input entirely_right crossing else pure false
    if c2 then pure entirely_right else pure crossing

/-- The function `maximum_subarray_recursive`.  The first argument bounds the
recursion depth; a call with `low ≠ high` spends one unit. -/
def maximum_subarray_recursive (input : List int32) : Nat → Nat → Nat → Result (Nat × Nat)
  | fuel, low, high =>
    if low = high then .ok (low, low + 1)
    else match fuel with
      | 0 => .error .out_of_fuel
      | fuel + 1 => do
        let middle := (low + high) / 2
        let entirely_left ← maximum_subarray_recursive input fuel low middle
        let entirely_right ← maximum_subarray_recursive input fuel (middle + 1) high
        let crossing ← maximum_subarray_crossing input low middle high
        combine input entirely_left entirely_right crossing

/-- The function `maximum_subarray_recursive` once more, by well-founded
recursion on `high - low` instead of a depth bound.  A call with `low > high`
never returns in the source (it makes another call with `low > high`); here
it ends in `out_of_fuel`. -/
def maximum_subarray_recursive_wf (input : List int32) (low high : Nat) : Result (Nat × Nat) :=
  if low = high then .ok (low, low + 1)
  else if low < high then do
    let middle := (low + high) / 2
    let entirely_left ← maximum_subarray_recursive_wf input low middle
    let entirely_right ← maximum_subarray_recursive_wf input (middle + 1) high
    let crossing ← maximum_subarray_crossing input low middle high
    combine input entirely_left entirely_right crossing
  else .error .out_of_fuel
termination_by high - low
decreasing_by
  all_goals simp_wf
  all_goals omega

/-- The function `max_subarray_dbh`; the recursion gets `input.size()` units
of depth. -/
def max_subarray_dbh (input : List int32) : Result summed_span :=
  if input.isEmpty then .error .assertion_failed
  else if input.length = 1 then summed_span.of_range input 0 input.length
  else do
    let b_e ← maximum_subarray_recursive input input.length 0 (input.length - 1)
    summed_span.of_range input b_e.1 b_e.2

/-! ## `subset_sum_exh` -/

/-- The conversion of a `uint64_t` value to `double` (round to nearest, ties
to even), the result again as a natural number: values below `2^53` are
exact, larger ones keep a 53-bit significand. -/
def toDouble (i : Nat) : Nat :=
  if i < 2 ^ 53 then i
  else
    let shift := Nat.log2 i - 52
    let q := i / 2 ^ shift
    let r := i % 2 ^ shift
    let half := 2 ^ (shift - 1)
    if r > half ∨ (r = half ∧ q % 2 = 1) then (q + 1) * 2 ^ shift else q * 2 ^ shift

/-- The statement `if (((i>>j)&1) == 1) candidate.push_back(elements[j]);`. -/
def push_if_set (elements : List int32) (i j : Nat) (candidate : List int32) :
    Result (List int32) :=
  if (i >>> j) &&& 1 = 1 then
    match elements[j]? with
    | none => .error .undefined_behaviour
    | some x => .ok (candidate ++ [x])
  else .ok candidate

/-- The inner loop `for (uint64_t j = 0; j < input.size(); j++)` of
`subset_sum_exh` for the pattern `i`: `count` iterations remain, the next
index is `j`.  The value is the returned candidate, if the loop returns. -/
def scan_bits (input elements : List int32) (target : int32) (i : Nat) :
    Nat → Nat → List int32 → Result (Option (List int32))
  | 0, _, _ => .ok none
  | count + 1, j, candidate => do
    let candidate ← push_if_set elements i j candidate
    let sum ← accumulate candidate 0 candidate.length 0
    if candidate.length > 0 ∧ sum = target then pure (some candidate)
    else scan_bits input elements target i count (j + 1) candidate

/-- The outer loop `for (uint64_t i = 0; i < std::pow(2, elements.size()); i++)`
of `subset_sum_exh`, from pattern `i` on, with a bound on the number of
iterations. -/
def search (input elements : List int32) (target : int32) : Nat → Nat → Result (Option (List int32))
  | 0, _ => .error .out_of_fuel
  | fuel + 1, i =>
    if toDouble i < 2 ^ elements.length then do
      match ← scan_bits input elements target i input.length 0 [] with
      | some candidate => pure (some candidate)
      | none => search input elements target fuel (i + 1)
    else pure none

/-- The function `subset_sum_exh`; `elements` is the copy of `input` made by
the first loop, and the search gets `2^n + 1` iterations. -/
def subset_sum_exh (input : List int32) (target : int32) : Result (Option (List int32)) :=
  if input.isEmpty then .error .assertion_failed
  else if ¬ input.length < 64 then .error .assertion_failed
  else
    let elements := input
    search input elements target (2 ^ elements.length + 1) 0


/-! ## Specification vocabulary -/

/-- The sum, in `ℤ`, of the elements of `input` at offsets `i, ..., j-1`. -/
def range_sum (input : List int32) (i j : Nat) : Int :=
  (((input.drop i).take (j - i)).map int32.val).sum

/-- The value the code computes for the sum of the elements at offsets
`i, ..., j-1`: the `int` that the sum wraps to. -/
def machine_sum (input : List int32) (i j : Nat) : Int :=
  wrap32 (range_sum input i j)

/-- The sum of the elements at offsets `i, ..., j-1` is an `int`: computing it
does not overflow. -/
def range_fits (input : List int32) (i j : Nat) : Prop :=
  -2147483648 ≤ range_sum input i j ∧ range_sum input i j ≤ 2147483647

/-- The sum of every non-empty contiguous range of `input` is an `int`. -/
def no_overflow (input : List int32) : Prop :=
  ∀ i j, i < j → j ≤ input.length → range_fits input i j

instance (input : List int32) (i j : Nat) : Decidable (range_fits input i j) := by
  unfold range_fits
  infer_instance

/-- The condition `no_overflow`, checked range by range. -/
def no_overflow_check (input : List int32) : Bool :=
  (List.range (input.length + 1)).all
    (fun j => (List.range j).all (fun i => decide (range_fits input i j)))

/-- A pair `(b, e)` delimits a non-empty range inside `input`. -/
def valid_range (input : List int32) (be : Nat × Nat) : Prop :=
  be.1 < be.2 ∧ be.2 ≤ input.length

/-- The indices below `k` whose bit is set in the pattern `p`, ascending. -/
def selected_indices (p k : Nat) : List Nat :=
  (List.range k).filter (fun j => p.testBit j)

/-- The elements of `input` selected by the low `k` bits of the pattern `p`,
in index order. -/
def select (input : List int32) (p k : Nat) : List int32 :=
  (selected_indices p k).map (fun j => input.getD j 0)

/-- A candidate is accepted: it is non-empty and its elements add up, in `int`
arithmetic, to `target`. -/
def matches_target (target : int32) (c : List int32) : Prop :=
  c ≠ [] ∧ c.sum = target

instance (target : int32) (c : List int32) : Decidable (matches_target target c) := by
  unfold matches_target
  infer_instance

/-- No prefix of the pattern `p` gives an accepted candidate: the bit scan of
`p` runs to its end without returning. -/
def no_prefix_match (input : List int32) (target : int32) (p : Nat) : Prop :=
  ∀ k, 0 < k → k ≤ input.length → ¬ matches_target target (select input p k)

/-- The choice of the combine step as the specification words it: entirely-left
when its sum is at least both others, otherwise entirely-right when its sum
is at least the crossing sum, otherwise crossing. -/
def preferred_left_right_crossing (sl sr sc : Int)
    (entirely_left entirely_right crossing : Nat × Nat) : Nat × Nat :=
  if sl ≥ sr ∧ sl ≥ sc then entirely_left
  else if sr ≥ sc then entirely_right
  else crossing

/-- The pair `(i, j)` comes before `(b, e)` in the iteration order of
`max_subarray_exh`: `i` ascending, then `j` ascending. -/
def iterated_before (i j b e : Nat) : Prop :=
  i < b ∨ (i = b ∧ j < e)

/-- The state of the loops of `max_subarray_exh` when the pair `(i, j)` is
about to be visited: the current best pair is a non-empty range of the input,
its computed sum is at least the computed sum of every range visited so far,
and greater than the computed sum of every range that comes before it in the
iteration order. -/
def exh_inv (input : List int32) (i j : Nat) (be : Nat × Nat) : Prop :=
  valid_range input be ∧
  (∀ i' j', i' < j' → j' ≤ input.length → iterated_before i' j' i j →
    machine_sum input i' j' ≤ machine_sum input be.1 be.2) ∧
  (∀ i' j', i' < j' → j' ≤ input.length → iterated_before i' j' be.1 be.2 →
    machine_sum input i' j' < machine_sum input be.1 be.2)

/-- The state of the first scan of `maximum_subarray_crossing` after the
indices `k, ..., middle` have been visited: `sum` is the running sum as
computed, and either `left_sum` and `b` still have their initial values and no
running sum exceeded the initial `left_sum`, or `b` is the largest index in
`[k, middle]` whose running sum is the largest, and `left_sum` is that sum. -/
def left_scan_inv (input : List int32) (middle k : Nat) (sum left_sum : int32) (b : Nat) :
    Prop :=
  sum.val = machine_sum input k (middle + 1) ∧
  ((left_sum.val = -2147483647 ∧ b = 0 ∧
      ∀ i, k ≤ i → i ≤ middle → machine_sum input i (middle + 1) ≤ -2147483647) ∨
    (k ≤ b ∧ b ≤ middle ∧ left_sum.val = machine_sum input b (middle + 1) ∧
      -2147483647 < left_sum.val ∧
      (∀ i, k ≤ i → i ≤ middle → machine_sum input i (middle + 1) ≤ left_sum.val) ∧
      (∀ i, b < i → i ≤ middle → machine_sum input i (middle + 1) < left_sum.val)))

/-- The state of the second scan of `maximum_subarray_crossing` after the
indices `middle+1, ..., k-1` have been visited: `sum` is the running sum as
computed, and either `right_sum` and `e` still have their initial values and
no running sum exceeded the initial `right_sum`, or `e` is the smallest index
in `[middle+1, k-1]` whose running sum is the largest, and `right_sum` is that
sum. -/
def right_scan_inv (input : List int32) (middle k : Nat) (sum right_sum : int32)
    (e : Nat) : Prop :=
  sum.val = machine_sum input (middle + 1) k ∧
  ((right_sum.val = -2147483647 ∧ e = 1 ∧
      ∀ j, middle < j → j < k → machine_sum input (middle + 1) (j + 1) ≤ -2147483647) ∨
    (middle < e ∧ e < k ∧ right_sum.val = machine_sum input (middle + 1) (e + 1) ∧
      -2147483647 < right_sum.val ∧
      (∀ j, middle < j → j < k → machine_sum input (middle + 1) (j + 1) ≤ right_sum.val) ∧
      (∀ j, middle < j → j < e → machine_sum input (middle + 1) (j + 1) < right_sum.val)))

/-! ## Arithmetic of `int` -/

theorem wrap32_of_fits (x : Int) (h : -2147483648 ≤ x ∧ x ≤ 2147483647) : wrap32 x = x := by
  unfold wrap32
  omega

theorem wrap32_wrap_add (a b : Int) : wrap32 (wrap32 a + b) = wrap32 (a + b) := by
  unfold wrap32
  omega

theorem wrap32_add_wrap (a b : Int) : wrap32 (a + wrap32 b) = wrap32 (a + b) := by
  unfold wrap32
  omega

theorem wrap32_bounds (x : Int) : -2147483648 ≤ wrap32 x ∧ wrap32 x ≤ 2147483647 := by
  unfold wrap32
  omega

theorem int32.ext_val (a b : int32) (h : a.val = b.val) : a = b := by
  cases a
  cases b
  simp only [int32.mk.injEq]
  exact h

theorem int32.val_ofInt (x : Int) : (int32.ofInt x).val = wrap32 x := rfl

theorem int32.val_add (a b : int32) : (a + b).val = wrap32 (a.val + b.val) := rfl

theorem int32.val_zero : (0 : int32).val = 0 := rfl

theorem int32.wrap_val (a : int32) : wrap32 a.val = a.val :=
  wrap32_of_fits a.val a.in_range

theorem int32.ofInt_val (a : int32) : int32.ofInt a.val = a :=
  int32.ext_val _ _ (int32.wrap_val a)

theorem int32.zero_add (a : int32) : (0 : int32) + a = a := by
  apply int32.ext_val
  rw [int32.val_add, int32.val_zero, Int.zero_add]
  exact int32.wrap_val a

theorem int32.lt_iff (a b : int32) : a < b ↔ a.val < b.val := Iff.rfl

/-- Adding up a vector from the left, starting from `a`, gives the `int` that
the true total wraps to. -/
theorem foldl_add_val (l : List int32) (a : int32) :
    (l.foldl (fun acc x => acc + x) a).val = wrap32 (a.val + (l.map int32.val).sum) := by
  induction l generalizing a with
  | nil => simp [int32.wrap_val]
  | cons x xs ih =>
    rw [List.foldl_cons, ih, int32.val_add, wrap32_wrap_add, List.map_cons, List.sum_cons,
      add_assoc]

theorem sum_val (l : List int32) : l.sum.val = wrap32 ((l.map int32.val).sum) := by
  induction l with
  | nil => rfl
  | cons x xs ih =>
    rw [List.sum_cons, int32.val_add, ih, wrap32_add_wrap, List.map_cons, List.sum_cons]

theorem foldl_add_eq_sum (l : List int32) :
    l.foldl (fun acc x => acc + x) 0 = l.sum := by
  apply int32.ext_val
  rw [foldl_add_val, sum_val, int32.val_zero, zero_add]

/-! ## Range sums -/

theorem range_sum_empty (input : List int32) (i : Nat) : range_sum input i i = 0 := by
  simp [range_sum]

theorem range_sum_split (input : List int32) (i k j : Nat) (h1 : i ≤ k) (h2 : k ≤ j) :
    range_sum input i j = range_sum input i k + range_sum input k j := by
  unfold range_sum
  have hj : j - i = (k - i) + (j - k) := by omega
  have hk : i + (k - i) = k := by omega
  rw [hj, List.take_add, List.map_append, List.sum_append, List.drop_drop, hk]

theorem range_sum_single (input : List int32) (i : Nat) (h : i < input.length) :
    range_sum input i (i + 1) = input[i].val := by
  unfold range_sum
  have hd : input.drop i = input[i] :: input.drop (i + 1) := List.drop_eq_getElem_cons h
  have h1 : i + 1 - i = 1 := by omega
  rw [hd, h1]
  simp only [List.take_succ_cons, List.take_zero, List.map_cons, List.map_nil, List.sum_cons,
    List.sum_nil, add_zero]

theorem range_sum_all (input : List int32) :
    range_sum input 0 input.length = (input.map int32.val).sum := by
  simp [range_sum]

theorem range_sum_cons (input : List int32) (i j : Nat) (hij : i < j) (hi : i < input.length) :
    range_sum input i j = input[i].val + range_sum input (i + 1) j := by
  rw [range_sum_split input i (i + 1) j (by omega) (by omega), range_sum_single input i hi]

theorem range_sum_snoc (input : List int32) (i j : Nat) (hij : i ≤ j) (hj : j < input.length) :
    range_sum input i (j + 1) = range_sum input i j + input[j].val := by
  rw [range_sum_split input i j (j + 1) hij (by omega), range_sum_single input j hj]

theorem machine_sum_bounds (input : List int32) (i j : Nat) :
    -2147483648 ≤ machine_sum input i j ∧ machine_sum input i j ≤ 2147483647 :=
  wrap32_bounds _

theorem machine_sum_of_fits (input : List int32) (i j : Nat) (h : range_fits input i j) :
    machine_sum input i j = range_sum input i j :=
  wrap32_of_fits _ h

theorem machine_sum_single (input : List int32) (i : Nat) (h : i < input.length) :
    machine_sum input i (i + 1) = input[i].val := by
  unfold machine_sum
  rw [range_sum_single input i h]
  exact int32.wrap_val _

/-- The call `std::accumulate(input.begin()+i, input.begin()+j, 0)` on a valid
iterator range returns the `int` that the sum of the range wraps to. -/
theorem accumulate_eq (input : List int32) (i j : Nat) (h1 : i ≤ j) (h2 : j ≤ input.length) :
    accumulate input i j 0 = .ok (int32.ofInt (range_sum input i j)) := by
  unfold accumulate
  rw [if_pos ⟨h1, h2⟩]
  congr 1
  apply int32.ext_val
  rw [foldl_add_val, int32.val_zero, zero_add, int32.val_ofInt]
  rfl

theorem ofInt_gt_iff (a b : Int) : int32.ofInt a > int32.ofInt b ↔ wrap32 a > wrap32 b :=
  Iff.rfl

/-! ## Loops -/

/-- A `for` loop over `start, ..., start+count-1` whose body keeps an invariant
returns, and the invariant holds at the exit. -/
theorem foldlM_range'_inv {σ : Type} (f : σ → Nat → Result σ) (Inv : Nat → σ → Prop) :
    ∀ (count start : Nat) (s : σ), Inv start s →
      (∀ k s, start ≤ k → k < start + count → Inv k s →
        ∃ s', f s k = .ok s' ∧ Inv (k + 1) s') →
      ∃ s', (List.range' start count).foldlM f s = .ok s' ∧ Inv (start + count) s' := by
  intro count
  induction count with
  | zero =>
    intro start s h0 _
    exact ⟨s, rfl, h0⟩
  | succ c ih =>
    intro start s h0 hstep
    obtain ⟨s1, hs1, hinv1⟩ := hstep start s (le_refl _) (by omega) h0
    obtain ⟨s2, hs2, hinv2⟩ := ih (start + 1) s1 hinv1 (by
      intro k t hk1 hk2 hk
      exact hstep k t (by omega) (by omega) hk)
    refine ⟨s2, ?_, ?_⟩
    · rw [List.range'_succ, List.foldlM_cons, hs1]
      exact hs2
    · have : start + (c + 1) = start + 1 + c := by omega
      rw [this]
      exact hinv2

/-- A `for` loop running down over `low + count - 1, ..., low` whose body keeps
an invariant returns, and the invariant holds at the exit. -/
theorem foldlM_range'_reverse_inv {σ : Type} (f : σ → Nat → Result σ)
    (Inv : Nat → σ → Prop) :
    ∀ (count low : Nat) (s : σ), Inv (low + count) s →
      (∀ k s, low ≤ k → k < low + count → Inv (k + 1) s →
        ∃ s', f s k = .ok s' ∧ Inv k s') →
      ∃ s', (List.range' low count).reverse.foldlM f s = .ok s' ∧ Inv low s' := by
  intro count
  induction count with
  | zero =>
    intro low s h0 _
    exact ⟨s, rfl, h0⟩
  | succ c ih =>
    intro low s h0 hstep
    obtain ⟨s1, hs1, hinv1⟩ := hstep (low + c) s (by omega) (by omega) h0
    obtain ⟨s2, hs2, hinv2⟩ := ih low s1 hinv1 (by
      intro k t hk1 hk2 hk
      exact hstep k t hk1 (by omega) hk)
    refine ⟨s2, ?_, hinv2⟩
    rw [List.range'_concat, List.reverse_concat, List.foldlM_cons]
    simp only [Nat.one_mul]
    rw [hs1]
    exact hs2

/-! ## `max_subarray_exh` -/

/-- One visit of the inner loop: the pair `(i, j)` replaces the current best
when its computed sum is greater. -/
theorem exh_body_eq (input : List int32) (i j : Nat) (be : Nat × Nat)
    (hij : i < j) (hj : j ≤ input.length) (hbe : valid_range input be) :
    exh_body input i be j =
      .ok (if machine_sum input i j > machine_sum input be.1 be.2 then (i, j) else be) := by
  obtain ⟨hb1, hb2⟩ := hbe
  unfold exh_body
  rw [accumulate_eq input i j (le_of_lt hij) hj,
    accumulate_eq input be.1 be.2 (le_of_lt hb1) hb2]
  by_cases hgt : machine_sum input i j > machine_sum input be.1 be.2
  · have hgt' : int32.ofInt (range_sum input i j) > int32.ofInt (range_sum input be.1 be.2) :=
      hgt
    rw [if_pos hgt]
    simp only [bind, Except.bind, if_pos hgt']
    rfl
  · have hgt' : ¬ int32.ofInt (range_sum input i j) >
        int32.ofInt (range_sum input be.1 be.2) := hgt
    rw [if_neg hgt]
    simp only [bind, Except.bind, if_neg hgt']
    rfl

theorem exh_body_first (input : List int32) (i j : Nat) (be : Nat × Nat)
    (hij : i < j) (hj : j ≤ input.length) (h : exh_inv input i j be) :
    ∃ be', exh_body input i be j = .ok be' ∧ exh_inv input i (j + 1) be' := by
  obtain ⟨hv, hvis, hfirst⟩ := h
  rw [exh_body_eq input i j be hij hj hv]
  by_cases hgt : machine_sum input i j > machine_sum input be.1 be.2
  · rw [if_pos hgt]
    refine ⟨(i, j), rfl, ⟨hij, hj⟩, ?_, ?_⟩
    · intro i' j' h1 h2 h3
      show machine_sum input i' j' ≤ machine_sum input i j
      unfold iterated_before at h3
      by_cases heq : i' = i ∧ j' = j
      · rw [heq.1, heq.2]
      · have hbefore : iterated_before i' j' i j := by
          unfold iterated_before
          omega
        have := hvis i' j' h1 h2 hbefore
        omega
    · intro i' j' h1 h2 h3
      show machine_sum input i' j' < machine_sum input i j
      have := hvis i' j' h1 h2 h3
      omega
  · rw [if_neg hgt]
    refine ⟨be, rfl, hv, ?_, hfirst⟩
    intro i' j' h1 h2 h3
    unfold iterated_before at h3
    by_cases heq : i' = i ∧ j' = j
    · rw [heq.1, heq.2]
      omega
    · have hbefore : iterated_before i' j' i j := by
        unfold iterated_before
        omega
      exact hvis i' j' h1 h2 hbefore

theorem exh_inner_first (input : List int32) (i : Nat) (be : Nat × Nat)
    (hi : i < input.length) (h : exh_inv input i (i + 1) be) :
    ∃ be', exh_inner input be i = .ok be' ∧ exh_inv input (i + 1) (i + 1 + 1) be' := by
  have hcount : i + 1 + (input.length - i) = input.length + 1 := by omega
  have hloop := foldlM_range'_inv (exh_body input i)
    (fun j st => exh_inv input i j st) (input.length - i) (i + 1) be h
    (by
      intro k st hk1 hk2 hk
      exact exh_body_first input i k st (by omega) (by omega) hk)
  rw [hcount] at hloop
  obtain ⟨be', hrun, hv, hvis, hfirst⟩ := hloop
  refine ⟨be', hrun, hv, ?_, hfirst⟩
  intro i' j' h1 h2 h3
  apply hvis i' j' h1 h2
  unfold iterated_before at h3 ⊢
  omega

theorem exh_outer_first (input : List int32) (hlen : 0 < input.length) :
    ∃ be, exh_outer input (0, 1) = .ok be ∧
      exh_inv input input.length (input.length + 1) be := by
  have hloop := foldlM_range'_inv (exh_inner input)
    (fun i st => exh_inv input i (i + 1) st) input.length 0 (0, 1)
    (by
      refine ⟨⟨by decide, hlen⟩, ?_, ?_⟩
      · intro i' j' h1 _ h3
        unfold iterated_before at h3
        omega
      · intro i' j' h1 _ h3
        unfold iterated_before at h3
        have h3' : i' < 0 ∨ (i' = 0 ∧ j' < 1) := h3
        omega)
    (by
      intro k st _ hk2 hk
      exact exh_inner_first input k st (by omega) hk)
  rw [Nat.zero_add] at hloop
  exact hloop

theorem of_range_spec (input : List int32) (be : Nat × Nat) (hbe : valid_range input be) :
    summed_span.of_range input be.1 be.2 =
      .ok ⟨be.1, be.2, int32.ofInt (range_sum input be.1 be.2)⟩ := by
  obtain ⟨h1, h2⟩ := hbe
  simp only [summed_span.of_range, accumulate_eq input be.1 be.2 (le_of_lt h1) h2]
  simp [bind, Except.bind, summed_span.construct, h1]

theorem isEmpty_eq_false_of_ne_nil (input : List int32) (h : input ≠ []) :
    input.isEmpty = false := by
  cases input with
  | nil => exact absurd rfl h
  | cons x xs => rfl

/-- On a non-empty input `max_subarray_exh` returns the span of a pair
`(b, e)` that delimits a non-empty range of the input; the stored sum is the
`int` the sum of the range wraps to; no range has a greater computed sum, and
every range that comes before `(b, e)` in the iteration order has a smaller
computed sum. -/
theorem max_subarray_exh_run (input : List int32) (h : input ≠ []) :
    ∃ be, valid_range input be ∧
      (∀ i j, i < j → j ≤ input.length →
        machine_sum input i j ≤ machine_sum input be.1 be.2) ∧
      (∀ i j, i < j → j ≤ input.length → iterated_before i j be.1 be.2 →
        machine_sum input i j < machine_sum input be.1 be.2) ∧
      max_subarray_exh input =
        .ok ⟨be.1, be.2, int32.ofInt (range_sum input be.1 be.2)⟩ := by
  have hlen : 0 < input.length := List.length_pos.mpr h
  have hne : input.isEmpty = false := isEmpty_eq_false_of_ne_nil input h
  by_cases h1 : input.length = 1
  · refine ⟨(0, input.length), ⟨hlen, le_refl _⟩, ?_, ?_, ?_⟩
    · intro i j hij hj
      have hi0 : i = 0 := by omega
      have hj1 : j = input.length := by omega
      rw [hi0, hj1]
    · intro i j hij hj hbefore
      unfold iterated_before at hbefore
      have hb : i < 0 ∨ (i = 0 ∧ j < input.length) := hbefore
      omega
    · have := of_range_spec input (0, input.length) ⟨hlen, le_refl _⟩
      simp only [max_subarray_exh, hne, h1] at this ⊢
      simpa using this
  · obtain ⟨be, hrun, hv, hvis, hfirst⟩ := exh_outer_first input hlen
    refine ⟨be, hv, ?_, hfirst, ?_⟩
    · intro i j hij hj
      apply hvis i j hij hj
      unfold iterated_before
      omega
    · simp only [max_subarray_exh, hne, h1, hrun]
      simpa [bind, Except.bind] using of_range_spec input be hv

theorem no_overflow_of_check (input : List int32) (h : no_overflow_check input = true) :
    no_overflow input := by
  intro i j hij hj
  unfold no_overflow_check at h
  rw [List.all_eq_true] at h
  have hj' := h j (List.mem_range.mpr (by omega))
  rw [List.all_eq_true] at hj'
  have hi' := hj' i (List.mem_range.mpr hij)
  exact of_decide_eq_true hi'

/-- Claim C3, as stated, fails on `[2147483647, 1]`: the sum of the whole input
is computed as `-2147483648`, the returned span is `[0, 1)` with sum
`2147483647`, and the sum of `input[0..2)` is `2147483648`. -/
theorem max_subarray_exh_overflow_not_maximal :
    max_subarray_exh [2147483647, 1] = .ok ⟨0, 1, 2147483647⟩ ∧
      accumulate [2147483647, 1] 0 2 0 = .ok (-2147483648) ∧
      range_sum [2147483647, 1] 0 2 = 2147483648 ∧
      ¬ (range_sum [2147483647, 1] 0 2 ≤ (2147483647 : int32).val) :=
  ⟨rfl, rfl, rfl, by decide⟩

/-- Claim C3, for inputs without overflow: on a non-empty input in which the
sum of every contiguous range is an `int`, `max_subarray_exh` returns a span
`[b, e)` with `b < e ≤ n` whose stored sum is the sum of `input[b..e)` and is
at least the sum of `input[i..j)` for every `i < j ≤ n`. -/
theorem max_subarray_exh_maximal (input : List int32) (h : input ≠ [])
    (hfit : no_overflow input) :
    ∃ s, max_subarray_exh input = .ok s ∧
      s.begin_ < s.end_ ∧ s.end_ ≤ input.length ∧
      s.sum_.val = range_sum input s.begin_ s.end_ ∧
      ∀ i j, i < j → j ≤ input.length → range_sum input i j ≤ s.sum_.val := by
  obtain ⟨be, hv, hmax, _, hrun⟩ := max_subarray_exh_run input h
  have hbe : machine_sum input be.1 be.2 = range_sum input be.1 be.2 :=
    machine_sum_of_fits input be.1 be.2 (hfit be.1 be.2 hv.1 hv.2)
  refine ⟨_, hrun, hv.1, hv.2, hbe, ?_⟩
  intro i j hij hj
  show range_sum input i j ≤ machine_sum input be.1 be.2
  rw [← machine_sum_of_fits input i j (hfit i j hij hj)]
  exact hmax i j hij hj

theorem max_subarray_exh_maximal_witness :
    ([-2, 1, -3, 4, -1, 2, 1, -5, 4] : List int32) ≠ [] ∧
    no_overflow [-2, 1, -3, 4, -1, 2, 1, -5, 4] ∧
    ∃ s, max_subarray_exh [-2, 1, -3, 4, -1, 2, 1, -5, 4] = .ok s ∧
      s.begin_ < s.end_ ∧ s.end_ ≤ ([-2, 1, -3, 4, -1, 2, 1, -5, 4] : List int32).length ∧
      s.sum_.val = range_sum [-2, 1, -3, 4, -1, 2, 1, -5, 4] s.begin_ s.end_ ∧
      ∀ i j, i < j → j ≤ ([-2, 1, -3, 4, -1, 2, 1, -5, 4] : List int32).length →
        range_sum [-2, 1, -3, 4, -1, 2, 1, -5, 4] i j ≤ s.sum_.val :=
  ⟨by decide, no_overflow_of_check _ rfl,
    max_subarray_exh_maximal [-2, 1, -3, 4, -1, 2, 1, -5, 4] (by decide)
      (no_overflow_of_check _ rfl)⟩

/-- Claim C12, as stated, fails on `[1073741824, 1073741824, 5]`: the returned
range is `[1, 3)`, and the range `[0, 2)`, which comes before it, has the
larger sum `2147483648` (computed as `-2147483648`). -/
theorem max_subarray_exh_overflow_not_first :
    max_subarray_exh [1073741824, 1073741824, 5] = .ok ⟨1, 3, 1073741829⟩ ∧
      iterated_before 0 2 1 3 ∧
      range_sum [1073741824, 1073741824, 5] 0 2 = 2147483648 ∧
      range_sum [1073741824, 1073741824, 5] 1 3 = 1073741829 ∧
      ¬ (range_sum [1073741824, 1073741824, 5] 0 2 <
        range_sum [1073741824, 1073741824, 5] 1 3) :=
  ⟨rfl, Or.inl (by decide), rfl, rfl, by decide⟩

/-- Claim C12, for inputs without overflow: on a non-empty input in which the
sum of every contiguous range is an `int`, the range `[b, e)` returned by
`max_subarray_exh` is the first range of maximal sum in the iteration order:
no range has a larger sum, and every range `[i, j)` that comes before
`(b, e)` (smaller `i`, or the same `i` and smaller `j`) has a strictly smaller
sum. -/
theorem max_subarray_exh_first_maximal (input : List int32) (h : input ≠ [])
    (hfit : no_overflow input) :
    ∃ s, max_subarray_exh input = .ok s ∧
      (∀ i j, i < j → j ≤ input.length →
        range_sum input i j ≤ range_sum input s.begin_ s.end_) ∧
      (∀ i j, i < j → j ≤ input.length → iterated_before i j s.begin_ s.end_ →
        range_sum input i j < range_sum input s.begin_ s.end_) := by
  obtain ⟨be, hv, hmax, hfirst, hrun⟩ := max_subarray_exh_run input h
  have hbe : machine_sum input be.1 be.2 = range_sum input be.1 be.2 :=
    machine_sum_of_fits input be.1 be.2 (hfit be.1 be.2 hv.1 hv.2)
  refine ⟨_, hrun, ?_, ?_⟩
  · intro i j hij hj
    show range_sum input i j ≤ range_sum input be.1 be.2
    rw [← hbe, ← machine_sum_of_fits input i j (hfit i j hij hj)]
    exact hmax i j hij hj
  · intro i j hij hj hbefore
    show range_sum input i j < range_sum input be.1 be.2
    rw [← hbe, ← machine_sum_of_fits input i j (hfit i j hij hj)]
    exact hfirst i j hij hj hbefore

theorem max_subarray_exh_first_maximal_witness :
    ([0, 1, 0, 1] : List int32) ≠ [] ∧ no_overflow [0, 1, 0, 1] ∧
    ∃ s, max_subarray_exh [0, 1, 0, 1] = .ok s ∧
      (∀ i j, i < j → j ≤ ([0, 1, 0, 1] : List int32).length →
        range_sum [0, 1, 0, 1] i j ≤ range_sum [0, 1, 0, 1] s.begin_ s.end_) ∧
      (∀ i j, i < j → j ≤ ([0, 1, 0, 1] : List int32).length →
        iterated_before i j s.begin_ s.end_ →
        range_sum [0, 1, 0, 1] i j < range_sum [0, 1, 0, 1] s.begin_ s.end_) :=
  ⟨by decide, no_overflow_of_check _ rfl,
    max_subarray_exh_first_maximal [0, 1, 0, 1] (by decide) (no_overflow_of_check _ rfl)⟩

/-- The part of claim C10 about `max_subarray_exh`, for inputs without
overflow: the sum of the returned span is at least every element of the input
and at least the sum of the whole input. -/
theorem max_subarray_exh_ge_element_and_total (input : List int32) (h : input ≠ [])
    (hfit : no_overflow input) :
    ∃ s, max_subarray_exh input = .ok s ∧
      (∀ x ∈ input, x.val ≤ s.sum_.val) ∧ (input.map int32.val).sum ≤ s.sum_.val := by
  obtain ⟨be, hv, hmax, _, hs⟩ := max_subarray_exh_run input h
  refine ⟨_, hs, ?_, ?_⟩
  · intro x hx
    obtain ⟨i, hi, hxi⟩ := List.getElem_of_mem hx
    show x.val ≤ machine_sum input be.1 be.2
    rw [← hxi, ← machine_sum_single input i hi]
    exact hmax i (i + 1) (Nat.lt_succ_self i) hi
  · show (input.map int32.val).sum ≤ machine_sum input be.1 be.2
    have hlen : 0 < input.length := List.length_pos.mpr h
    rw [← range_sum_all input,
      ← machine_sum_of_fits input 0 input.length (hfit 0 input.length hlen (le_refl _))]
    exact hmax 0 input.length hlen (le_refl _)

theorem sum_neg_of_all_neg (l : List Int) (hne : l ≠ []) (hneg : ∀ x ∈ l, x < 0) :
    l.sum < 0 := by
  induction l with
  | nil => exact absurd rfl hne
  | cons x xs ih =>
    have hx : x < 0 := hneg x (List.mem_cons_self x xs)
    by_cases hxs : xs = []
    · subst hxs
      simpa using hx
    · have := ih hxs (fun y hy => hneg y (List.mem_cons_of_mem x hy))
      rw [List.sum_cons]
      omega

theorem range_sum_neg (input : List int32) (i j : Nat) (hij : i < j)
    (hj : j ≤ input.length) (hneg : ∀ x ∈ input, x.val < 0) : range_sum input i j < 0 := by
  unfold range_sum
  apply sum_neg_of_all_neg
  · intro hnil
    have hlen : (((input.drop i).take (j - i)).map int32.val).length = j - i := by
      rw [List.length_map, List.length_take, List.length_drop]
      omega
    rw [hnil] at hlen
    simp at hlen
    omega
  · intro x hx
    obtain ⟨y, hy, hyx⟩ := List.mem_map.mp hx
    rw [← hyx]
    exact hneg y (List.mem_of_mem_drop (List.mem_of_mem_take hy))

/-- The part of claim C11 about `max_subarray_exh`, for inputs without
overflow: on a non-empty input of negative elements the returned span has one
element, and its sum is that element and is at least every element of the
input. -/
theorem max_subarray_exh_all_negative (input : List int32) (h : input ≠ [])
    (hfit : no_overflow input) (hneg : ∀ x ∈ input, x.val < 0) :
    ∃ s, max_subarray_exh input = .ok s ∧
      s.end_ = s.begin_ + 1 ∧ s.size = 1 ∧
      input[s.begin_]? = some s.sum_ ∧
      ∀ x ∈ input, x.val ≤ s.sum_.val := by
  obtain ⟨be, ⟨hv1, hv2⟩, hmax, _, hrun⟩ := max_subarray_exh_run input h
  have hbe : machine_sum input be.1 be.2 = range_sum input be.1 be.2 :=
    machine_sum_of_fits input be.1 be.2 (hfit be.1 be.2 hv1 hv2)
  have hone : be.2 = be.1 + 1 := by
    by_contra hcon
    have hlt : be.1 + 1 < be.2 := by omega
    have hsplit := range_sum_cons input be.1 be.2 hv1 (by omega)
    have hrest := range_sum_neg input (be.1 + 1) be.2 hlt hv2 hneg
    have hsingle := machine_sum_single input be.1 (by omega)
    have := hmax be.1 (be.1 + 1) (Nat.lt_succ_self _) (by omega)
    omega
  have hb : be.1 < input.length := by omega
  have hsum : range_sum input be.1 be.2 = input[be.1].val := by
    rw [hone]
    exact range_sum_single input be.1 hb
  refine ⟨_, hrun, hone, ?_, ?_, ?_⟩
  · show be.2 - be.1 = 1
    omega
  · show input[be.1]? = some (int32.ofInt (range_sum input be.1 be.2))
    rw [hsum, int32.ofInt_val]
    exact List.getElem?_eq_getElem hb
  · intro x hx
    obtain ⟨i, hi, hxi⟩ := List.getElem_of_mem hx
    show x.val ≤ machine_sum input be.1 be.2
    rw [← hxi, ← machine_sum_single input i hi]
    exact hmax i (i + 1) (Nat.lt_succ_self i) hi

/-! ## `subset_sum_exh`: the scan of one pattern -/

theorem select_succ (input : List int32) (p k : Nat) :
    select input p (k + 1) =
      select input p k ++ (if p.testBit k then [input.getD k 0] else []) := by
  unfold select selected_indices
  rw [List.range_succ, List.filter_append, List.map_append]
  by_cases h : p.testBit k <;> simp [h]

theorem bit_test_iff (i j : Nat) : ((i >>> j) &&& 1 = 1) ↔ i.testBit j = true := by
  rw [Nat.and_one_is_mod, Nat.testBit_to_div_mod, Nat.shiftRight_eq_div_pow]
  simp

theorem accumulate_all (c : List int32) : accumulate c 0 c.length 0 = .ok c.sum := by
  unfold accumulate
  rw [if_pos ⟨Nat.zero_le _, le_refl _⟩]
  simp only [List.drop_zero, Nat.sub_zero, List.take_length]
  rw [foldl_add_eq_sum]

/-- One iteration of the bit scan: from the candidate of the low `j` bits to
that of the low `j+1` bits, followed by the acceptance test. -/
theorem scan_bits_succ (input : List int32) (target : int32) (i count j : Nat)
    (hj : j < input.length) :
    scan_bits input input target i (count + 1) j (select input i j) =
      if matches_target target (select input i (j + 1))
      then .ok (some (select input i (j + 1)))
      else scan_bits input input target i count (j + 1) (select input i (j + 1)) := by
  have hget : input[j]? = some (input.getD j 0) := by
    simp [List.getD_eq_getElem?_getD, List.getElem?_eq_getElem hj]
  have hcand : push_if_set input i j (select input i j) =
      .ok (select input i (j + 1)) := by
    unfold push_if_set
    rw [select_succ, hget]
    by_cases hb : i.testBit j = true
    · rw [if_pos ((bit_test_iff i j).mpr hb)]
      simp [hb]
    · rw [if_neg (fun h => hb ((bit_test_iff i j).mp h))]
      simp [hb]
  rw [scan_bits, hcand]
  simp only [bind, Except.bind, accumulate_all]
  by_cases hm : matches_target target (select input i (j + 1))
  · have hm' := hm
    unfold matches_target at hm'
    rw [if_pos hm, if_pos ⟨List.length_pos.mpr hm'.1, hm'.2⟩]
    rfl
  · have hm' : ¬ ((select input i (j + 1)).length > 0 ∧
        (select input i (j + 1)).sum = target) := by
      intro h
      exact hm ⟨List.length_pos.mp h.1, h.2⟩
    rw [if_neg hm, if_neg hm']

/-- The bit scan of pattern `i` returns; it returns the candidate of the
shortest accepted prefix of the pattern, and nothing when no prefix is
accepted. -/
theorem scan_bits_spec (input : List int32) (target : int32) (i : Nat) :
    ∀ count j, j + count ≤ input.length →
      ∃ r, scan_bits input input target i count j (select input i j) = .ok r ∧
        (r = none → ∀ k, j < k → k ≤ j + count →
          ¬ matches_target target (select input i k)) ∧
        (∀ c, r = some c → ∃ k, j < k ∧ k ≤ j + count ∧ c = select input i k ∧
          matches_target target c ∧
          ∀ k', j < k' → k' < k → ¬ matches_target target (select input i k')) := by
  intro count
  induction count with
  | zero =>
    intro j _
    refine ⟨none, rfl, ?_, ?_⟩
    · intro _ k h1 h2
      omega
    · intro c hc
      cases hc
  | succ n ih =>
    intro j hj
    rw [scan_bits_succ input target i n j (by omega)]
    by_cases hm : matches_target target (select input i (j + 1))
    · rw [if_pos hm]
      refine ⟨some (select input i (j + 1)), rfl, ?_, ?_⟩
      · intro h
        cases h
      · intro c hc
        cases hc
        exact ⟨j + 1, by omega, by omega, rfl, hm, fun k' h1 h2 => by omega⟩
    · rw [if_neg hm]
      obtain ⟨r, hr, hnone, hsome⟩ := ih (j + 1) (by omega)
      refine ⟨r, hr, ?_, ?_⟩
      · intro hrn k h1 h2
        by_cases hk : k = j + 1
        · subst hk
          exact hm
        · exact hnone hrn k (by omega) (by omega)
      · intro c hc
        obtain ⟨k, h1, h2, h3, h4, h5⟩ := hsome c hc
        refine ⟨k, by omega, by omega, h3, h4, ?_⟩
        intro k' hk1 hk2
        by_cases hk : k' = j + 1
        · subst hk
          exact hm
        · exact h5 k' (by omega) hk2

/-! ## `subset_sum_exh`: the conversion to `double` -/

theorem toDouble_of_lt (i : Nat) (h : i < 2 ^ 53) : toDouble i = i := by
  unfold toDouble
  rw [if_pos h]

theorem toDouble_two_pow (n : Nat) : toDouble (2 ^ n) = 2 ^ n := by
  by_cases h : n < 53
  · exact toDouble_of_lt _ (Nat.pow_lt_pow_right (by decide) h)
  · have hn : 53 ≤ n := Nat.le_of_not_lt h
    have hge : ¬ (2 ^ n < 2 ^ 53) := Nat.not_lt.mpr (Nat.pow_le_pow_right (by decide) hn)
    have hsplit : 2 ^ n = 2 ^ 52 * 2 ^ (n - 52) := by
      rw [← Nat.pow_add]
      congr 1
      omega
    have hpos : 0 < 2 ^ (n - 52) := Nat.two_pow_pos _
    have hq : 2 ^ n / 2 ^ (n - 52) = 2 ^ 52 := by
      rw [hsplit]
      exact Nat.mul_div_cancel _ hpos
    have hr : 2 ^ n % 2 ^ (n - 52) = 0 := by
      rw [hsplit]
      exact Nat.mul_mod_left _ _
    have hhalf : 0 < 2 ^ (n - 52 - 1) := Nat.two_pow_pos _
    unfold toDouble
    rw [if_neg hge]
    simp only [Nat.log2_two_pow, hq, hr]
    rw [if_neg]
    · exact hsplit.symm
    · intro hc
      rcases hc with hc | ⟨hc, _⟩
      · exact absurd hc (Nat.not_lt_zero _)
      · omega

theorem log2_eq_of_bounds (i k : Nat) (h1 : 2 ^ k ≤ i) (h2 : i < 2 ^ (k + 1)) :
    Nat.log2 i = k := by
  have hne : i ≠ 0 := by
    have : 0 < 2 ^ k := Nat.two_pow_pos _
    omega
  have hlt : Nat.log2 i < k + 1 := (Nat.log2_lt hne).mpr h2
  have hge : ¬ Nat.log2 i < k := fun h => by
    have := (Nat.log2_lt hne).mp h
    omega
  omega

/-- The counter value `2^54 - 1` is not a `double`; it is converted to `2^54`. -/
theorem toDouble_rounds_up : toDouble (2 ^ 54 - 1) = 2 ^ 54 := by
  have hlog : Nat.log2 (2 ^ 54 - 1) = 53 :=
    log2_eq_of_bounds _ 53 (by norm_num) (by norm_num)
  unfold toDouble
  rw [if_neg (by norm_num)]
  simp only [hlog]
  norm_num

/-! ## `subset_sum_exh`: the search over the patterns -/

theorem select_zero (input : List int32) (p : Nat) : select input p 0 = [] := rfl

theorem search_succ (input : List int32) (target : int32) (fuel i : Nat)
    (r : Option (List int32)) :
    scan_bits input input target i input.length 0 [] = .ok r →
    search input input target (fuel + 1) i =
      if toDouble i < 2 ^ input.length then
        (match r with
          | some c => .ok (some c)
          | none => search input input target fuel (i + 1))
      else .ok none := by
  intro hr
  rw [search, hr]
  rfl

theorem scan_bits_full (input : List int32) (target : int32) (i : Nat) :
    ∃ r, scan_bits input input target i input.length 0 [] = .ok r ∧
      (r = none → no_prefix_match input target i) ∧
      (∀ c, r = some c → ∃ k, 0 < k ∧ k ≤ input.length ∧ c = select input i k ∧
        matches_target target c ∧
        ∀ k', 0 < k' → k' < k → ¬ matches_target target (select input i k')) := by
  obtain ⟨r, hr, hnone, hsome⟩ := scan_bits_spec input target i input.length 0 (by omega)
  rw [select_zero] at hr
  refine ⟨r, hr, ?_, ?_⟩
  · intro h k h1 h2
    exact hnone h k h1 (by omega)
  · intro c hc
    obtain ⟨k, h1, h2, h3, h4, h5⟩ := hsome c hc
    exact ⟨k, h1, by omega, h3, h4, h5⟩

/-- The search returns (it does not exhaust its iterations) when started at
`i ≤ 2^n` with more than `2^n - i` iterations. -/
theorem search_returns (input : List int32) (target : int32) :
    ∀ fuel i, i ≤ 2 ^ input.length → 2 ^ input.length - i < fuel →
      ∃ r, search input input target fuel i = .ok r := by
  intro fuel
  induction fuel with
  | zero =>
    intro i _ h
    omega
  | succ f ih =>
    intro i hi hf
    obtain ⟨r, hr, _, _⟩ := scan_bits_full input target i
    rw [search_succ input target f i r hr]
    by_cases hc : toDouble i < 2 ^ input.length
    · rw [if_pos hc]
      have hne : i ≠ 2 ^ input.length := by
        intro h
        rw [h, toDouble_two_pow] at hc
        exact absurd hc (Nat.lt_irrefl _)
      cases r with
      | some c => exact ⟨some c, rfl⟩
      | none => exact ih (i + 1) (by omega) (by omega)
    · rw [if_neg hc]
      exact ⟨none, rfl⟩

/-- A candidate returned by the search is the candidate of the shortest
accepted prefix of the first pattern, from `i` on, that has an accepted
prefix; every counter value up to that pattern passed the loop condition. -/
theorem search_some (input : List int32) (target : int32) :
    ∀ fuel i c, search input input target fuel i = .ok (some c) →
      ∃ p k, i ≤ p ∧ 0 < k ∧ k ≤ input.length ∧
        c = select input p k ∧ matches_target target c ∧
        (∀ k', 0 < k' → k' < k → ¬ matches_target target (select input p k')) ∧
        (∀ p', i ≤ p' → p' < p → no_prefix_match input target p') ∧
        (∀ p', i ≤ p' → p' ≤ p → toDouble p' < 2 ^ input.length) := by
  intro fuel
  induction fuel with
  | zero =>
    intro i c h
    simp [search] at h
  | succ f ih =>
    intro i c h
    obtain ⟨r, hr, hnone, hsome⟩ := scan_bits_full input target i
    rw [search_succ input target f i r hr] at h
    by_cases hc : toDouble i < 2 ^ input.length
    · rw [if_pos hc] at h
      cases r with
      | some c' =>
        have hcc : c' = c := by
          simpa using h
        subst hcc
        obtain ⟨k, h1, h2, h3, h4, h5⟩ := hsome c' rfl
        refine ⟨i, k, le_refl _, h1, h2, h3, h4, h5, fun p' hp1 hp2 => by omega, ?_⟩
        intro p' hp1 hp2
        have : p' = i := by omega
        rw [this]
        exact hc
      | none =>
        obtain ⟨p, k, h1, h3, h4, h5, h6, h7, h8, h9⟩ := ih (i + 1) c h
        refine ⟨p, k, by omega, h3, h4, h5, h6, h7, ?_, ?_⟩
        · intro p' hp1 hp2
          by_cases hpi : p' = i
          · subst hpi
            exact hnone rfl
          · exact h8 p' (by omega) hp2
        · intro p' hp1 hp2
          by_cases hpi : p' = i
          · subst hpi
            exact hc
          · exact h9 p' (by omega) hp2
    · rw [if_neg hc] at h
      simp at h

/-- When the search returns nothing, the loop condition failed at some
counter value and no pattern before it has an accepted prefix. -/
theorem search_none (input : List int32) (target : int32) :
    ∀ fuel i, search input input target fuel i = .ok none →
      ∃ P, i ≤ P ∧ ¬ toDouble P < 2 ^ input.length ∧
        ∀ p, i ≤ p → p < P → no_prefix_match input target p := by
  intro fuel
  induction fuel with
  | zero =>
    intro i h
    simp [search] at h
  | succ f ih =>
    intro i h
    obtain ⟨r, hr, hnone, _⟩ := scan_bits_full input target i
    rw [search_succ input target f i r hr] at h
    by_cases hc : toDouble i < 2 ^ input.length
    · rw [if_pos hc] at h
      cases r with
      | some c' => simp at h
      | none =>
        obtain ⟨P, h1, h2, h3⟩ := ih (i + 1) h
        refine ⟨P, by omega, h2, ?_⟩
        intro p hp1 hp2
        by_cases hpi : p = i
        · subst hpi
          exact hnone rfl
        · exact h3 p (by omega) hp2
    · exact ⟨i, le_refl _, hc, fun p hp1 hp2 => by omega⟩

/-- The search returns nothing when the loop condition fails at `P` and no
pattern in `[i, P)` has an accepted prefix. -/
theorem search_eq_none (input : List int32) (target : int32) (P : Nat)
    (hP : ¬ toDouble P < 2 ^ input.length) :
    ∀ fuel i, i ≤ P → P - i < fuel →
      (∀ p, i ≤ p → p < P → no_prefix_match input target p) →
      search input input target fuel i = .ok none := by
  intro fuel
  induction fuel with
  | zero =>
    intro i _ h
    omega
  | succ f ih =>
    intro i hi hf hno
    obtain ⟨r, hr, _, hsome⟩ := scan_bits_full input target i
    rw [search_succ input target f i r hr]
    by_cases hc : toDouble i < 2 ^ input.length
    · rw [if_pos hc]
      have hlt : i < P := by
        rcases Nat.lt_or_ge i P with h | h
        · exact h
        · have : i = P := by omega
          subst this
          exact absurd hc hP
      cases r with
      | some c =>
        obtain ⟨k, h1, h2, h3, h4, _⟩ := hsome c rfl
        rw [h3] at h4
        exact absurd h4 (hno i (le_refl _) hlt k h1 h2)
      | none =>
        exact ih (i + 1) (by omega) (by omega) (fun p hp1 hp2 => hno p (by omega) hp2)
    · rw [if_neg hc]

/-! ## `subset_sum_exh`: results -/

theorem subset_sum_exh_eq_search (input : List int32) (target : int32)
    (h1 : input ≠ []) (h2 : input.length < 64) :
    subset_sum_exh input target =
      search input input target (2 ^ input.length + 1) 0 := by
  simp [subset_sum_exh, isEmpty_eq_false_of_ne_nil input h1, h2]

theorem selected_indices_pairwise (p k : Nat) :
    (selected_indices p k).Pairwise (fun a b => a < b) :=
  List.Pairwise.filter _ (List.pairwise_lt_range k)

theorem selected_indices_lt (p k j : Nat) (h : j ∈ selected_indices p k) : j < k := by
  unfold selected_indices at h
  exact List.mem_range.mp (List.mem_filter.mp h).1

theorem selected_indices_bit (p k j : Nat) (h : j ∈ selected_indices p k) :
    p.testBit j = true := by
  unfold selected_indices at h
  exact (List.mem_filter.mp h).2

theorem select_eq_getElem (input : List int32) (p k : Nat) (hk : k ≤ input.length) :
    (select input p k).map some = (selected_indices p k).map (fun j => input[j]?) := by
  unfold select
  rw [List.map_map]
  apply List.map_congr_left
  intro j hj
  have hlt : j < input.length := Nat.lt_of_lt_of_le (selected_indices_lt p k j hj) hk
  simp [List.getD_eq_getElem?_getD, List.getElem?_eq_getElem hlt]

/-- Claim C5, as stated, fails on `[2147483647, 1]` with target `-2147483648`:
the sum of both elements is computed as `-2147483648`, the function returns
`[2147483647, 1]`, and the sum of its elements is `2147483648`. -/
theorem subset_sum_exh_overflow_subset :
    subset_sum_exh [2147483647, 1] (-2147483648) = .ok (some [2147483647, 1]) ∧
      (([2147483647, 1] : List int32).map int32.val).sum = 2147483648 ∧
      (-2147483648 : int32).val = -2147483648 ∧
      (([2147483647, 1] : List int32).map int32.val).sum ≠ (-2147483648 : int32).val :=
  ⟨rfl, rfl, rfl, by decide⟩

/-- Claim C5, with the sum as the code computes it: a subset returned by
`subset_sum_exh` is non-empty, it consists of the input elements at a strictly
increasing list of indices of the input, and its elements add up to `target`
in `int` arithmetic; when the sum of its elements is an `int` (no overflow)
that sum is exactly `target`. -/
theorem subset_sum_exh_sound (input : List int32) (target : int32) (c : List int32)
    (_hne : input ≠ []) (_hlen : input.length < 64)
    (h : subset_sum_exh input target = .ok (some c)) :
    c ≠ [] ∧ c.sum = target ∧
      (-2147483648 ≤ (c.map int32.val).sum ∧ (c.map int32.val).sum ≤ 2147483647 →
        (c.map int32.val).sum = target.val) ∧
      ∃ idx : List Nat, idx.Pairwise (fun a b => a < b) ∧
        (∀ j ∈ idx, j < input.length) ∧
        c.map some = idx.map (fun j => input[j]?) := by
  rw [subset_sum_exh_eq_search input target _hne _hlen] at h
  obtain ⟨p, k, _, _, hk, hc, hm, _, _, _⟩ := search_some input target _ 0 c h
  refine ⟨hm.1, hm.2, ?_, selected_indices p k, selected_indices_pairwise p k, ?_, ?_⟩
  · intro hfit
    rw [← hm.2, sum_val, wrap32_of_fits _ hfit]
  · intro j hj
    exact Nat.lt_of_lt_of_le (selected_indices_lt p k j hj) hk
  · rw [hc]
    exact select_eq_getElem input p k hk

theorem subset_sum_exh_sound_witness :
    ([3, 34, 4, 12, 5, 2] : List int32) ≠ [] ∧
    ([3, 34, 4, 12, 5, 2] : List int32).length < 64 ∧
    subset_sum_exh [3, 34, 4, 12, 5, 2] 9 = .ok (some [4, 5]) ∧
    ([4, 5] : List int32) ≠ [] ∧ ([4, 5] : List int32).sum = 9 ∧
      (-2147483648 ≤ (([4, 5] : List int32).map int32.val).sum ∧
          (([4, 5] : List int32).map int32.val).sum ≤ 2147483647 →
        (([4, 5] : List int32).map int32.val).sum = (9 : int32).val) ∧
      ∃ idx : List Nat, idx.Pairwise (fun a b => a < b) ∧
        (∀ j ∈ idx, j < ([3, 34, 4, 12, 5, 2] : List int32).length) ∧
        ([4, 5] : List int32).map some =
          idx.map (fun j => ([3, 34, 4, 12, 5, 2] : List int32)[j]?) :=
  ⟨by decide, by decide, rfl,
    subset_sum_exh_sound [3, 34, 4, 12, 5, 2] 9 [4, 5] (by decide) (by decide) rfl⟩

/-- Claim C8, as the code behaves: for input `[3, 34, 4, 12, 5, 2]` and target
`9` the function returns `[4, 5]`, the elements of pattern `20`; the subset
`[3, 4, 2]` belongs to the later pattern `37`. -/
theorem subset_sum_exh_scenario :
    subset_sum_exh [3, 34, 4, 12, 5, 2] 9 = .ok (some [4, 5]) ∧
      select [3, 34, 4, 12, 5, 2] 20 6 = [4, 5] ∧
      select [3, 34, 4, 12, 5, 2] 37 6 = [3, 4, 2] :=
  ⟨rfl, rfl, rfl⟩

/-- Claim C8, as stated, fails: the result is not `[3, 4, 2]`. -/
theorem scenario_does_not_return_3_4_2 :
    subset_sum_exh [3, 34, 4, 12, 5, 2] 9 ≠ .ok (some [3, 4, 2]) := by
  have h : subset_sum_exh [3, 34, 4, 12, 5, 2] 9 = .ok (some [4, 5]) := rfl
  rw [h]
  intro hc
  injection hc with hc
  injection hc with hc
  exact absurd hc (by decide)

/-- Claim C9: each of the three functions fails its assertion on the empty
input, `subset_sum_exh` fails its assertion on an input of 64 or more
elements, and on every other input `max_subarray_exh` and `subset_sum_exh`
return. -/
theorem preconditions_fail_fast (input : List int32) (target : int32) :
    (input = [] → max_subarray_exh input = .error .assertion_failed ∧
      max_subarray_dbh input = .error .assertion_failed ∧
      subset_sum_exh input target = .error .assertion_failed) ∧
    (64 ≤ input.length → subset_sum_exh input target = .error .assertion_failed) ∧
    (input ≠ [] → ∃ s, max_subarray_exh input = .ok s) ∧
    (input ≠ [] → input.length < 64 → ∃ r, subset_sum_exh input target = .ok r) := by
  refine ⟨?_, ?_, ?_, ?_⟩
  · intro h
    subst h
    exact ⟨rfl, rfl, rfl⟩
  · intro h
    have hne : input ≠ [] := by
      intro h0
      subst h0
      simp at h
    have hnot : ¬ input.length < 64 := by omega
    simp [subset_sum_exh, isEmpty_eq_false_of_ne_nil input hne, hnot]
  · intro h
    obtain ⟨be, _, _, _, hrun⟩ := max_subarray_exh_run input h
    exact ⟨_, hrun⟩
  · intro h1 h2
    rw [subset_sum_exh_eq_search input target h1 h2]
    exact search_returns input target _ 0 (Nat.zero_le _)
      (Nat.lt_succ_of_le (Nat.sub_le _ _))

theorem preconditions_fail_fast_witness :
    (max_subarray_exh [] = .error .assertion_failed ∧
      max_subarray_dbh [] = .error .assertion_failed ∧
      subset_sum_exh [] 7 = .error .assertion_failed) ∧
    subset_sum_exh (List.replicate 64 1) 7 = .error .assertion_failed ∧
    (∃ s, max_subarray_exh [1, 2, 3] = .ok s) ∧
    (∃ r, subset_sum_exh [1, 2, 3] 100 = .ok r) :=
  ⟨(preconditions_fail_fast [] 7).1 rfl,
    (preconditions_fail_fast (List.replicate 64 1) 7).2.1 (by decide),
    (preconditions_fail_fast [1, 2, 3] 100).2.2.1 (by decide),
    (preconditions_fail_fast [1, 2, 3] 100).2.2.2 (by decide) (by decide)⟩

/-! ## `subset_sum_exh`: the patterns the loop never reaches -/

theorem all_bits_set (p n : Nat) (h : ∀ j, j < n → p.testBit j = true) :
    2 ^ n - 1 ≤ p := by
  have hmod : p % 2 ^ n = 2 ^ n - 1 := by
    apply Nat.eq_of_testBit_eq
    intro j
    rw [Nat.testBit_mod_two_pow, Nat.testBit_two_pow_sub_one]
    by_cases hj : j < n
    · simp [hj, h j hj]
    · simp [hj]
  rw [← hmod]
  exact Nat.mod_le _ _

theorem int32.val_one : (1 : int32).val = 1 := rfl

theorem select_ones (n p k : Nat) (hk : k ≤ n) :
    select (List.replicate n 1) p k = List.replicate (selected_indices p k).length 1 := by
  rw [List.eq_replicate_iff]
  refine ⟨by simp [select], ?_⟩
  intro b hb
  unfold select at hb
  obtain ⟨j, hj, hjb⟩ := List.mem_map.mp hb
  have hlt : j < n := Nat.lt_of_lt_of_le (selected_indices_lt p k j hj) hk
  rw [← hjb]
  simp [List.getD_eq_getElem?_getD, List.getElem?_replicate, hlt]

theorem select_ones_sum (n p k : Nat) (hk : k ≤ n) :
    (select (List.replicate n 1) p k).sum.val =
      wrap32 ((selected_indices p k).length : Int) := by
  rw [select_ones n p k hk, sum_val, List.map_replicate, int32.val_one]
  simp

/-- Among `n` ones, only a pattern with all of the low `n` bits set selects
elements that add up to `n`. -/
theorem ones_match_only_full (n p k : Nat) (hk : k ≤ n) (hn : n ≤ 2147483647)
    (h : (select (List.replicate n 1) p k).sum = int32.ofInt n) : 2 ^ n - 1 ≤ p := by
  have hle : (selected_indices p k).length ≤ k := by
    unfold selected_indices
    exact le_trans (List.length_filter_le _ _) (by simp)
  have hval := congrArg int32.val h
  rw [select_ones_sum n p k hk, int32.val_ofInt,
    wrap32_of_fits _ ⟨by omega, by omega⟩, wrap32_of_fits _ ⟨by omega, by omega⟩] at hval
  have hlen : (selected_indices p k).length = n := by exact_mod_cast hval
  have hkn : k = n := by omega
  subst hkn
  apply all_bits_set
  intro j hj
  have hall : ((List.range k).filter (fun j => p.testBit j)).length = (List.range k).length := by
    unfold selected_indices at hlen
    simpa using hlen
  exact (List.filter_length_eq_length.mp hall) j (List.mem_range.mpr hj)

theorem ones_no_prefix_match (n p : Nat) (hn : n ≤ 2147483647) (hp : p < 2 ^ n - 1) :
    no_prefix_match (List.replicate n 1) (int32.ofInt n) p := by
  intro k _ hk hm
  rw [List.length_replicate] at hk
  have := ones_match_only_full n p k hk hn hm.2
  omega

theorem replicate_ones_sum (m : Nat) :
    (List.replicate m (1 : int32)).sum = int32.ofInt m := by
  apply int32.ext_val
  rw [sum_val, List.map_replicate, int32.val_one, int32.val_ofInt]
  simp

theorem replicate_54_ne_nil : List.replicate 54 (1 : int32) ≠ [] := by
  intro h
  have := congrArg List.length h
  simp at this

theorem ones_full_pattern (n : Nat) :
    select (List.replicate n 1) (2 ^ n - 1) n = List.replicate n 1 := by
  have hidx : selected_indices (2 ^ n - 1) n = List.range n := by
    unfold selected_indices
    rw [List.filter_eq_self]
    intro j hj
    simp [Nat.testBit_two_pow_sub_one, List.mem_range.mp hj]
  have hlen : (select (List.replicate n (1 : int32)) (2 ^ n - 1) n).length = n := by
    simp [select, hidx]
  rw [List.eq_replicate_iff]
  refine ⟨hlen, ?_⟩
  intro b hb
  unfold select at hb
  obtain ⟨j, hj, hjb⟩ := List.mem_map.mp hb
  have hlt : j < n := selected_indices_lt _ _ j hj
  rw [← hjb]
  simp [List.getD_eq_getElem?_getD, List.getElem?_replicate, hlt]

theorem subset_sum_exh_ones_54 :
    subset_sum_exh (List.replicate 54 1) 54 = .ok none := by
  rw [subset_sum_exh_eq_search _ _ (by decide) (by decide)]
  have hlen : (List.replicate 54 (1 : int32)).length = 54 := List.length_replicate _ _
  apply search_eq_none _ _ (2 ^ 54 - 1)
  · rw [hlen, toDouble_rounds_up]
    exact Nat.lt_irrefl _
  · exact Nat.zero_le _
  · rw [hlen]
    norm_num
  · intro p _ hp
    exact ones_no_prefix_match 54 p (by decide) hp

/-- Claim C6 fails on 54 ones with target 54: the pattern `2^54 - 1` selects
all 54 elements, a non-empty subset adding up to the target, and the function
returns the "no match" result. -/
theorem no_match_reported_for_54_ones :
    subset_sum_exh (List.replicate 54 1) 54 = .ok none ∧
      select (List.replicate 54 1) (2 ^ 54 - 1) 54 = List.replicate 54 1 ∧
      matches_target 54 (List.replicate 54 1) :=
  ⟨subset_sum_exh_ones_54, ones_full_pattern 54, replicate_54_ne_nil,
    replicate_ones_sum 54⟩

/-- Claim C7 fails on 54 ones with target 54: the smallest pattern `p` with
`1 ≤ p < 2^54` whose selected elements add up to the target is `2^54 - 1`, and
the function does not return its elements. -/
theorem smallest_pattern_of_54_ones_not_returned :
    (1 ≤ 2 ^ 54 - 1 ∧ 2 ^ 54 - 1 < 2 ^ 54) ∧
      (select (List.replicate 54 1) (2 ^ 54 - 1) 54).sum = 54 ∧
      (∀ q, q < 2 ^ 54 - 1 → (select (List.replicate 54 1) q 54).sum ≠ 54) ∧
      subset_sum_exh (List.replicate 54 1) 54 ≠
        .ok (some (select (List.replicate 54 1) (2 ^ 54 - 1) 54)) := by
  refine ⟨⟨by norm_num, by norm_num⟩, ?_, ?_, ?_⟩
  · rw [ones_full_pattern 54]
    exact replicate_ones_sum 54
  · intro q hq hsum
    have := ones_match_only_full 54 q 54 (le_refl _) (by decide) hsum
    omega
  · rw [subset_sum_exh_ones_54]
    intro hc
    injection hc with hc
    exact absurd hc (by simp)

/-! ## `max_subarray_dbh` on concrete inputs -/

/-- Claim C1 fails on `[-1, -1]`: the two halves tie, the combine step returns
the crossing range `[0, 2)` of sum `-2`, and the range `[0, 1)` has the larger
sum `-1`. -/
theorem max_subarray_dbh_not_maximal :
    max_subarray_dbh [-1, -1] = .ok ⟨0, 2, -2⟩ ∧
      range_sum [-1, -1] 0 1 = -1 ∧
      combine [-1, -1] (0, 1) (1, 2) (0, 2) = .ok (0, 2) :=
  ⟨rfl, rfl, rfl⟩

/-- Claim C2 fails on `[1, -5, 1]`: `max_subarray_exh` returns a span of sum
`1`, `max_subarray_dbh` one of sum `-3`. -/
theorem max_subarray_exh_dbh_differ :
    max_subarray_exh [1, -5, 1] = .ok ⟨0, 1, 1⟩ ∧
      max_subarray_dbh [1, -5, 1] = .ok ⟨0, 3, -3⟩ :=
  ⟨rfl, rfl⟩

/-- Claim C4 fails on `[0, 0, 0, -2147483647, 0, 0]`: the second scan of the
top-level crossing never improves on its initial value, the recursion returns
the pair `(2, 2)`, and the `assert(begin < end)` of the constructor fails. -/
theorem max_subarray_dbh_assertion_fails :
    maximum_subarray_crossing [0, 0, 0, -2147483647, 0, 0] 0 2 5 = .ok (2, 2) ∧
      maximum_subarray_recursive [0, 0, 0, -2147483647, 0, 0] 6 0 5 = .ok (2, 2) ∧
      max_subarray_dbh [0, 0, 0, -2147483647, 0, 0] = .error .assertion_failed :=
  ⟨rfl, rfl, rfl⟩

/-- Claim C10 fails for `max_subarray_dbh` on `[3, -4, 3]`: the returned span
has sum `2`, less than the element `3`. -/
theorem max_subarray_dbh_below_element :
    max_subarray_dbh [3, -4, 3] = .ok ⟨0, 3, 2⟩ ∧
      (3 : int32) ∈ ([3, -4, 3] : List int32) ∧ (2 : int32) < 3 :=
  ⟨rfl, by decide, by decide⟩

/-! ## `subset_sum_exh`: the first matching pattern -/

theorem selected_indices_mod (p k n : Nat) (hk : k ≤ n) :
    selected_indices (p % 2 ^ k) n = selected_indices p k := by
  unfold selected_indices
  have hn : n = k + (n - k) := by omega
  rw [hn, List.range_add, List.filter_append]
  have h1 : (List.range k).filter (fun j => (p % 2 ^ k).testBit j) =
      (List.range k).filter (fun j => p.testBit j) := by
    apply List.filter_congr
    intro j hj
    simp [Nat.testBit_mod_two_pow, List.mem_range.mp hj]
  have h2 : ((List.range (n - k)).map (fun x => k + x)).filter
      (fun j => (p % 2 ^ k).testBit j) = [] := by
    rw [List.filter_eq_nil_iff]
    intro j hj
    obtain ⟨x, _, hx⟩ := List.mem_map.mp hj
    have : ¬ j < k := by omega
    simp [Nat.testBit_mod_two_pow, this]
  rw [h1, h2, List.append_nil]

theorem select_mod (input : List int32) (p k n : Nat) (hk : k ≤ n) :
    select input (p % 2 ^ k) n = select input p k := by
  unfold select
  rw [selected_indices_mod p k n hk]

theorem select_pattern_zero (input : List int32) (n : Nat) : select input 0 n = [] := by
  simp [select, selected_indices]

theorem select_ne_nil (input : List int32) (p n : Nat) (h1 : 1 ≤ p) (h2 : p < 2 ^ n) :
    select input p n ≠ [] := by
  obtain ⟨j, hj⟩ := Nat.ne_zero_implies_bit_true (Nat.pos_iff_ne_zero.mp h1)
  have hge : 2 ^ j ≤ p := Nat.testBit_implies_ge hj
  have hjn : j < n := by
    by_contra hcon
    have : 2 ^ n ≤ 2 ^ j := Nat.pow_le_pow_right (by decide) (Nat.le_of_not_lt hcon)
    omega
  have hmem : j ∈ selected_indices p n := by
    unfold selected_indices
    exact List.mem_filter.mpr ⟨List.mem_range.mpr hjn, hj⟩
  intro hnil
  unfold select at hnil
  rw [List.map_eq_nil_iff] at hnil
  rw [hnil] at hmem
  exact absurd hmem (List.not_mem_nil j)

/-- When the smallest matching pattern `p` and every counter value before it
pass the loop condition, `subset_sum_exh` returns the elements selected by
`p`: the check inside the bit scan does not let another subset through. -/
theorem subset_sum_exh_first_match (input : List int32) (target : int32) (p : Nat)
    (hne : input ≠ []) (hlen : input.length < 64)
    (hp1 : 1 ≤ p) (hp2 : p < 2 ^ input.length)
    (hm : (select input p input.length).sum = target)
    (hmin : ∀ q, 1 ≤ q → q < p → (select input q input.length).sum ≠ target)
    (hloop : ∀ q, q ≤ p → toDouble q < 2 ^ input.length) :
    subset_sum_exh input target = .ok (some (select input p input.length)) := by
  have hpm : matches_target target (select input p input.length) :=
    ⟨select_ne_nil input p _ hp1 hp2, hm⟩
  have hlenpos : 0 < input.length := List.length_pos.mpr hne
  rw [subset_sum_exh_eq_search input target hne hlen]
  obtain ⟨r, hr⟩ := search_returns input target (2 ^ input.length + 1) 0 (Nat.zero_le _)
    (Nat.lt_succ_of_le (Nat.sub_le _ _))
  rw [hr]
  cases r with
  | none =>
    obtain ⟨P, _, hP, hno⟩ := search_none input target _ 0 hr
    have hpP : p < P := by
      by_contra hcon
      exact hP (hloop P (Nat.le_of_not_lt hcon))
    exact absurd hpm (hno p (Nat.zero_le _) hpP input.length hlenpos (le_refl _))
  | some c =>
    obtain ⟨p0, k, _, hk0, hk, hc, hcm, _, hbefore, _⟩ := search_some input target _ 0 c hr
    have hp0 : p0 ≤ p := by
      by_contra hcon
      exact absurd hpm
        (hbefore p (Nat.zero_le _) (Nat.lt_of_not_le hcon) input.length hlenpos (le_refl _))
    have hsel : select input (p0 % 2 ^ k) input.length = c := by
      rw [select_mod input p0 k input.length hk, hc]
    have hmodle : p0 % 2 ^ k ≤ p0 := Nat.mod_le _ _
    have hmodpos : 1 ≤ p0 % 2 ^ k := by
      by_contra hcon
      have hz : p0 % 2 ^ k = 0 := by omega
      rw [hz, select_pattern_zero] at hsel
      exact hcm.1 hsel.symm
    have hge : p ≤ p0 % 2 ^ k := by
      by_contra hcon
      exact hmin (p0 % 2 ^ k) hmodpos (Nat.lt_of_not_le hcon) (by rw [hsel]; exact hcm.2)
    have heq : p0 % 2 ^ k = p := by omega
    rw [← hsel, heq]

/-- With at most 53 elements every pattern below `2^n` passes the loop
condition. -/
theorem loop_condition_small (n q : Nat) (hn : n ≤ 53) (hq : q < 2 ^ n) :
    toDouble q < 2 ^ n := by
  have h53 : 2 ^ n ≤ 2 ^ 53 := Nat.pow_le_pow_right (by decide) hn
  rw [toDouble_of_lt q (by omega)]
  exact hq

/-- With at most 53 elements `subset_sum_exh` returns "no match" exactly when
no pattern `p` with `1 ≤ p < 2^n` selects elements adding up to `target`. -/
theorem subset_sum_exh_none_iff_small (input : List int32) (target : int32)
    (hne : input ≠ []) (hlen : input.length ≤ 53) :
    subset_sum_exh input target = .ok none ↔
      ∀ p, 1 ≤ p → p < 2 ^ input.length → (select input p input.length).sum ≠ target := by
  have hlenpos : 0 < input.length := List.length_pos.mpr hne
  rw [subset_sum_exh_eq_search input target hne (by omega)]
  constructor
  · intro h p hp1 hp2 hsum
    obtain ⟨P, _, hP, hno⟩ := search_none input target _ 0 h
    have hpP : p < P := by
      by_contra hcon
      have hPlt : P < 2 ^ input.length := by omega
      exact hP (loop_condition_small input.length P hlen hPlt)
    exact hno p (Nat.zero_le _) hpP input.length hlenpos (le_refl _)
      ⟨select_ne_nil input p _ hp1 hp2, hsum⟩
  · intro h
    apply search_eq_none input target (2 ^ input.length)
    · rw [toDouble_two_pow]
      exact Nat.lt_irrefl _
    · exact Nat.zero_le _
    · exact Nat.lt_succ_of_le (Nat.sub_le _ _)
    · intro p _ hp k hk0 hk hmatch
      have hsel : select input (p % 2 ^ k) input.length = select input p k :=
        select_mod input p k input.length hk
      have hmodlt : p % 2 ^ k < 2 ^ input.length :=
        Nat.lt_of_le_of_lt (Nat.mod_le _ _) hp
      have hmodpos : 1 ≤ p % 2 ^ k := by
        by_contra hcon
        have hz : p % 2 ^ k = 0 := by omega
        rw [hz, select_pattern_zero] at hsel
        exact hmatch.1 hsel.symm
      exact h (p % 2 ^ k) hmodpos hmodlt (by rw [hsel]; exact hmatch.2)

/-! ## Single-element and all-negative inputs -/

/-- Claim C13: on the one-element sequence `[x]` both `max_subarray_exh` and
`max_subarray_dbh` return the span `[0, 1)`, of size 1 and sum `x`. -/
theorem single_element_span (x : int32) :
    max_subarray_exh [x] = .ok ⟨0, 1, x⟩ ∧
      max_subarray_dbh [x] = .ok ⟨0, 1, x⟩ ∧
      (⟨0, 1, x⟩ : summed_span).size = 1 := by
  refine ⟨?_, ?_, rfl⟩
  · simp [max_subarray_exh, summed_span.of_range, accumulate, summed_span.construct,
      bind, Except.bind, int32.zero_add]
  · simp [max_subarray_dbh, summed_span.of_range, accumulate, summed_span.construct,
      bind, Except.bind, int32.zero_add]

/-- Claim C11 fails for `max_subarray_dbh` on `[-1, -5, -1]`: all elements are
negative, the largest is `-1`, and the returned span `[1, 3)` has two elements
and sum `-6`. -/
theorem max_subarray_dbh_all_negative_two_elements :
    (∀ x ∈ ([-1, -5, -1] : List int32), x < 0) ∧
      max_subarray_dbh [-1, -5, -1] = .ok ⟨1, 3, -6⟩ ∧
      (⟨1, 3, -6⟩ : summed_span).size = 2 :=
  ⟨by decide, rfl, rfl⟩

/-! ## `maximum_subarray_crossing` and the combine step on concrete inputs -/

/-- Claim C14, as stated, fails on `[1, 0]` with the candidates `(0, 1)`,
`(1, 2)`, `(0, 2)` of sums `1`, `0`, `1`: the entirely-left sum is at least
both others, and the combine step returns the crossing pair.  It also fails
on `[2147483647, 1]` with the same candidates, of sums `2147483647`, `1`,
`2147483648`: the crossing sum is computed as `-2147483648` and the combine
step returns the entirely-left pair. -/
theorem combine_does_not_prefer_left :
    accumulate [1, 0] 0 1 0 = .ok 1 ∧ accumulate [1, 0] 1 2 0 = .ok 0 ∧
      accumulate [1, 0] 0 2 0 = .ok 1 ∧
      preferred_left_right_crossing 1 0 1 (0, 1) (1, 2) (0, 2) = (0, 1) ∧
      combine [1, 0] (0, 1) (1, 2) (0, 2) = .ok (0, 2) ∧
      combine [1, 0] (0, 1) (1, 2) (0, 2) ≠
        .ok (preferred_left_right_crossing 1 0 1 (0, 1) (1, 2) (0, 2)) ∧
      range_sum [2147483647, 1] 0 2 = 2147483648 ∧
      preferred_left_right_crossing 2147483647 1 2147483648 (0, 1) (1, 2) (0, 2) = (0, 2) ∧
      combine [2147483647, 1] (0, 1) (1, 2) (0, 2) = .ok (0, 1) := by
  refine ⟨rfl, rfl, rfl, rfl, rfl, ?_, rfl, rfl, rfl⟩
  intro h
  have h2 : combine [1, 0] (0, 1) (1, 2) (0, 2) = .ok (0, 2) := rfl
  rw [h2] at h
  injection h with h
  exact absurd h (by decide)

/-- Claim C16 fails on `[0, 0, 0, -2147483647]` with `low = middle = 2`,
`high = 3`: the one element of the second scan does not replace the initial
`right_sum`, `e` keeps its initial value `1`, and the returned `(2, 2)` has
`e - 1 = 1 < middle + 1`. -/
theorem crossing_initial_value_not_replaced :
    crossing_step [0, 0, 0, -2147483647] (0, -2147483647, 1) 3 =
        .ok (-2147483647, -2147483647, 1) ∧
      maximum_subarray_crossing [0, 0, 0, -2147483647] 2 2 3 = .ok (2, 2) ∧
      ¬ (2 + 1 ≤ 2 - 1) :=
  ⟨rfl, rfl, by decide⟩

/-- Claim C17, as stated, fails on `[0, 0, 0]` with `low = 0`, `middle = 1`,
`high = 2`: the returned `b` is `1`, and the smaller index `0` gives the same,
maximal, sum of `input[i..middle]`.  It also fails on
`[2147483647, 2147483647, 1]` with the same indices: the sum of
`input[0..middle]` is the largest and is computed as `-2`, and the returned
`b` is `1`. -/
theorem crossing_left_scan_not_leftmost :
    maximum_subarray_crossing [0, 0, 0] 0 1 2 = .ok (1, 3) ∧
      (∀ i, i ≤ 1 → range_sum [0, 0, 0] i 2 ≤ range_sum [0, 0, 0] 0 2) ∧
      (0 : Nat) < 1 ∧
      maximum_subarray_crossing [2147483647, 2147483647, 1] 0 1 2 = .ok (1, 3) ∧
      range_sum [2147483647, 2147483647, 1] 1 2 <
        range_sum [2147483647, 2147483647, 1] 0 2 := by
  refine ⟨rfl, ?_, by decide, rfl, by decide⟩
  intro i hi
  have h : i = 0 ∨ i = 1 := by omega
  rcases h with h | h <;> subst h <;> decide

/-! ## The two scans of `maximum_subarray_crossing` -/

theorem crossing_step_eq (input : List int32) (st : int32 × int32 × Nat) (i : Nat)
    (hi : i < input.length) :
    crossing_step input st i =
      .ok (if st.1 + input[i] > st.2.1 then (st.1 + input[i], st.1 + input[i], i)
        else (st.1 + input[i], st.2.1, st.2.2)) := by
  unfold crossing_step
  rw [List.getElem?_eq_getElem hi]
  by_cases h : st.1 + input[i] > st.2.1
  · simp [h]
  · simp [h]

theorem left_scan_step (input : List int32) (middle k : Nat) (st : int32 × int32 × Nat)
    (hk : k ≤ middle) (hm : middle < input.length)
    (h : left_scan_inv input middle (k + 1) st.1 st.2.1 st.2.2) :
    ∃ st', crossing_step input st k = .ok st' ∧
      left_scan_inv input middle k st'.1 st'.2.1 st'.2.2 := by
  obtain ⟨hsum, hdisj⟩ := h
  have hkn : k < input.length := by omega
  have hx : (st.1 + input[k]).val = machine_sum input k (middle + 1) := by
    rw [int32.val_add, hsum]
    unfold machine_sum
    rw [range_sum_cons input k (middle + 1) (by omega) hkn, wrap32_wrap_add, add_comm]
  rw [crossing_step_eq input st k hkn]
  by_cases hgt : st.1 + input[k] > st.2.1
  · have hgt' : (st.1 + input[k]).val > st.2.1.val := hgt
    rw [if_pos hgt]
    refine ⟨(st.1 + input[k], st.1 + input[k], k), rfl, ?_⟩
    show left_scan_inv input middle k (st.1 + input[k]) (st.1 + input[k]) k
    refine ⟨hx, Or.inr ⟨le_refl _, hk, hx, ?_, ?_, ?_⟩⟩
    · rcases hdisj with ⟨h1, _, _⟩ | ⟨_, _, _, h4, _, _⟩
      · omega
      · omega
    · intro i hi1 hi2
      by_cases hik : i = k
      · rw [hik, hx]
      · rcases hdisj with ⟨h1, _, h3⟩ | ⟨_, _, _, _, h5, _⟩
        · have := h3 i (by omega) hi2
          omega
        · have := h5 i (by omega) hi2
          omega
    · intro i hi1 hi2
      rcases hdisj with ⟨h1, _, h3⟩ | ⟨_, _, _, _, h5, _⟩
      · have := h3 i (by omega) hi2
        omega
      · have := h5 i (by omega) hi2
        omega
  · have hgt' : ¬ (st.1 + input[k]).val > st.2.1.val := hgt
    rw [if_neg hgt]
    refine ⟨(st.1 + input[k], st.2.1, st.2.2), rfl, ?_⟩
    show left_scan_inv input middle k (st.1 + input[k]) st.2.1 st.2.2
    refine ⟨hx, ?_⟩
    rcases hdisj with ⟨h1, h2, h3⟩ | ⟨h1, h2, h3, h4, h5, h6⟩
    · refine Or.inl ⟨h1, h2, ?_⟩
      intro i hi1 hi2
      by_cases hik : i = k
      · rw [hik, ← hx]
        omega
      · exact h3 i (by omega) hi2
    · refine Or.inr ⟨by omega, h2, h3, h4, ?_, h6⟩
      intro i hi1 hi2
      by_cases hik : i = k
      · rw [hik, ← hx]
        omega
      · exact h5 i (by omega) hi2

theorem right_scan_step (input : List int32) (middle k : Nat) (st : int32 × int32 × Nat)
    (hk : middle < k) (hn : k < input.length)
    (h : right_scan_inv input middle k st.1 st.2.1 st.2.2) :
    ∃ st', crossing_step input st k = .ok st' ∧
      right_scan_inv input middle (k + 1) st'.1 st'.2.1 st'.2.2 := by
  obtain ⟨hsum, hdisj⟩ := h
  have hx : (st.1 + input[k]).val = machine_sum input (middle + 1) (k + 1) := by
    rw [int32.val_add, hsum]
    unfold machine_sum
    rw [range_sum_snoc input (middle + 1) k (by omega) hn, wrap32_wrap_add]
  rw [crossing_step_eq input st k hn]
  by_cases hgt : st.1 + input[k] > st.2.1
  · have hgt' : (st.1 + input[k]).val > st.2.1.val := hgt
    rw [if_pos hgt]
    refine ⟨(st.1 + input[k], st.1 + input[k], k), rfl, ?_⟩
    show right_scan_inv input middle (k + 1) (st.1 + input[k]) (st.1 + input[k]) k
    refine ⟨hx, Or.inr ⟨hk, Nat.lt_succ_self k, hx, ?_, ?_, ?_⟩⟩
    · rcases hdisj with ⟨h1, _, _⟩ | ⟨_, _, _, h4, _, _⟩
      · omega
      · omega
    · intro j hj1 hj2
      by_cases hjk : j = k
      · rw [hjk, hx]
      · rcases hdisj with ⟨h1, _, h3⟩ | ⟨_, _, _, _, h5, _⟩
        · have := h3 j hj1 (by omega)
          omega
        · have := h5 j hj1 (by omega)
          omega
    · intro j hj1 hj2
      rcases hdisj with ⟨h1, _, h3⟩ | ⟨_, _, _, _, h5, _⟩
      · have := h3 j hj1 hj2
        omega
      · have := h5 j hj1 hj2
        omega
  · have hgt' : ¬ (st.1 + input[k]).val > st.2.1.val := hgt
    rw [if_neg hgt]
    refine ⟨(st.1 + input[k], st.2.1, st.2.2), rfl, ?_⟩
    show right_scan_inv input middle (k + 1) (st.1 + input[k]) st.2.1 st.2.2
    refine ⟨hx, ?_⟩
    rcases hdisj with ⟨h1, h2, h3⟩ | ⟨h1, h2, h3, h4, h5, h6⟩
    · refine Or.inl ⟨h1, h2, ?_⟩
      intro j hj1 hj2
      by_cases hjk : j = k
      · rw [hjk, ← hx]
        omega
      · exact h3 j hj1 (by omega)
    · refine Or.inr ⟨h1, by omega, h3, h4, ?_, h6⟩
      intro j hj1 hj2
      by_cases hjk : j = k
      · rw [hjk, ← hx]
        omega
      · exact h5 j hj1 (by omega)

theorem machine_sum_empty (input : List int32) (i : Nat) : machine_sum input i i = 0 := by
  unfold machine_sum
  rw [range_sum_empty]
  rfl

/-- The first scan returns, in a state described by `left_scan_inv` at `low`. -/
theorem left_scan_spec (input : List int32) (low middle : Nat)
    (hlow : low ≤ middle) (hm : middle < input.length) :
    ∃ st, (List.range' low (middle + 1 - low)).reverse.foldlM (crossing_step input)
        (0, -2147483647, 0) = .ok st ∧
      left_scan_inv input middle low st.1 st.2.1 st.2.2 := by
  have hcount : low + (middle + 1 - low) = middle + 1 := by omega
  apply foldlM_range'_reverse_inv (crossing_step input)
    (fun k st => left_scan_inv input middle k st.1 st.2.1 st.2.2)
  · rw [hcount]
    refine ⟨?_, Or.inl ⟨rfl, rfl, ?_⟩⟩
    · show (0 : int32).val = machine_sum input (middle + 1) (middle + 1)
      rw [machine_sum_empty]
      rfl
    · intro i hi1 hi2
      omega
  · intro k st hk1 hk2 hinv
    exact left_scan_step input middle k st (by omega) hm hinv

/-- The second scan returns, in a state described by `right_scan_inv` at
`high + 1`. -/
theorem right_scan_spec (input : List int32) (middle high : Nat)
    (hmid : middle < high) (hn : high < input.length) :
    ∃ st, (List.range' (middle + 1) (high - middle)).foldlM (crossing_step input)
        (0, -2147483647, 1) = .ok st ∧
      right_scan_inv input middle (high + 1) st.1 st.2.1 st.2.2 := by
  have hcount : middle + 1 + (high - middle) = high + 1 := by omega
  have h := foldlM_range'_inv (crossing_step input)
    (fun k st => right_scan_inv input middle k st.1 st.2.1 st.2.2)
    (high - middle) (middle + 1) (0, -2147483647, 1)
    (by
      refine ⟨?_, Or.inl ⟨rfl, rfl, ?_⟩⟩
      · show (0 : int32).val = machine_sum input (middle + 1) (middle + 1)
        rw [machine_sum_empty]
        rfl
      · intro j hj1 hj2
        omega)
    (by
      intro k st hk1 hk2 hinv
      exact right_scan_step input middle k st (by omega) (by omega) hinv)
  rw [hcount] at h
  exact h

/-! ## `maximum_subarray_crossing` -/

/-- With `low ≤ middle < high < n` the function returns the pair `(b, e + 1)`
of the final `b` of the first scan and the final `e` of the second. -/
theorem crossing_run (input : List int32) (low middle high : Nat)
    (h1 : low ≤ middle) (h2 : middle < high) (h3 : high < input.length) :
    ∃ l r : int32 × int32 × Nat,
      maximum_subarray_crossing input low middle high = .ok (l.2.2, r.2.2 + 1) ∧
      left_scan_inv input middle low l.1 l.2.1 l.2.2 ∧
      right_scan_inv input middle (high + 1) r.1 r.2.1 r.2.2 := by
  obtain ⟨l, hl, hlinv⟩ := left_scan_spec input low middle h1 (by omega)
  obtain ⟨r, hr, hrinv⟩ := right_scan_spec input middle high h2 h3
  refine ⟨l, r, ?_, hlinv, hrinv⟩
  unfold maximum_subarray_crossing
  rw [hl, hr]
  rfl

/-- Claim C15, as stated, fails on `[2147483647, 2147483647, 1]` with `low = 0`,
`middle = 1`, `high = 2`: every running sum of the two scans is greater than
`-2147483647`, the running sum `2147483647 + 2147483647` is computed as `-2`,
the function returns `(1, 3)`, and the range `[0, 3)` has the larger sum. -/
theorem crossing_overflow_not_best :
    maximum_subarray_crossing [2147483647, 2147483647, 1] 0 1 2 = .ok (1, 3) ∧
      (∀ i, 0 ≤ i → i ≤ 1 →
        -2147483647 < range_sum [2147483647, 2147483647, 1] i (1 + 1)) ∧
      (∀ j, 1 < j → j ≤ 2 →
        -2147483647 < range_sum [2147483647, 2147483647, 1] (1 + 1) (j + 1)) ∧
      ¬ (range_sum [2147483647, 2147483647, 1] 0 (2 + 1) ≤
        range_sum [2147483647, 2147483647, 1] 1 3) := by
  refine ⟨rfl, ?_, ?_, by decide⟩
  · intro i hi1 hi2
    interval_cases i <;> decide
  · intro j hj1 hj2
    interval_cases j
    decide

/-- Claim C15, for scans without overflow: with `low ≤ middle < high < n` and
every running sum of the two scans greater than `-2147483647` and at most
`2147483647`, `maximum_subarray_crossing` returns `(b, e)` with
`low ≤ b ≤ middle < e - 1 ≤ high`, and the sum of `input[b..e)` is at least
the sum of `input[i..j]` for all `low ≤ i ≤ middle < j ≤ high`. -/
theorem maximum_subarray_crossing_best (input : List int32) (low middle high : Nat)
    (h1 : low ≤ middle) (h2 : middle < high) (h3 : high < input.length)
    (hleft : ∀ i, low ≤ i → i ≤ middle →
      -2147483647 < range_sum input i (middle + 1) ∧
        range_sum input i (middle + 1) ≤ 2147483647)
    (hright : ∀ j, middle < j → j ≤ high →
      -2147483647 < range_sum input (middle + 1) (j + 1) ∧
        range_sum input (middle + 1) (j + 1) ≤ 2147483647) :
    ∃ b e, maximum_subarray_crossing input low middle high = .ok (b, e) ∧
      low ≤ b ∧ b ≤ middle ∧ middle < e - 1 ∧ e - 1 ≤ high ∧
      ∀ i j, low ≤ i → i ≤ middle → middle < j → j ≤ high →
        range_sum input i (j + 1) ≤ range_sum input b e := by
  have hL : ∀ i, low ≤ i → i ≤ middle →
      machine_sum input i (middle + 1) = range_sum input i (middle + 1) := by
    intro i hi1 hi2
    have := hleft i hi1 hi2
    exact machine_sum_of_fits input i (middle + 1) ⟨by omega, this.2⟩
  have hR : ∀ j, middle < j → j ≤ high →
      machine_sum input (middle + 1) (j + 1) = range_sum input (middle + 1) (j + 1) := by
    intro j hj1 hj2
    have := hright j hj1 hj2
    exact machine_sum_of_fits input (middle + 1) (j + 1) ⟨by omega, this.2⟩
  obtain ⟨l, r, hrun, ⟨_, hl⟩, ⟨_, hr⟩⟩ := crossing_run input low middle high h1 h2 h3
  refine ⟨l.2.2, r.2.2 + 1, hrun, ?_⟩
  rcases hl with ⟨_, _, hl3⟩ | ⟨hl1, hl2, hl3, _, hl5, _⟩
  · have := hl3 middle h1 (le_refl _)
    have := hleft middle h1 (le_refl _)
    have := hL middle h1 (le_refl _)
    omega
  rcases hr with ⟨_, _, hr3⟩ | ⟨hr1, hr2, hr3, _, hr5, _⟩
  · have := hr3 (middle + 1) (by omega) (by omega)
    have := hright (middle + 1) (by omega) (by omega)
    have := hR (middle + 1) (by omega) (by omega)
    omega
  refine ⟨hl1, hl2, by omega, by omega, ?_⟩
  intro i j hi1 hi2 hj1 hj2
  rw [range_sum_split input i (middle + 1) (j + 1) (by omega) (by omega),
    range_sum_split input l.2.2 (middle + 1) (r.2.2 + 1) (by omega) (by omega)]
  have := hl5 i hi1 hi2
  have := hr5 j hj1 (by omega)
  have := hL i hi1 hi2
  have := hL l.2.2 hl1 hl2
  have := hR j hj1 hj2
  have := hR r.2.2 hr1 (by omega)
  omega

theorem maximum_subarray_crossing_best_witness :
    (0 ≤ 4) ∧ (4 < 8) ∧ (8 < ([-2, 1, -3, 4, -1, 2, 1, -5, 4] : List int32).length) ∧
    (∀ i, 0 ≤ i → i ≤ 4 →
      -2147483647 < range_sum [-2, 1, -3, 4, -1, 2, 1, -5, 4] i (4 + 1) ∧
        range_sum [-2, 1, -3, 4, -1, 2, 1, -5, 4] i (4 + 1) ≤ 2147483647) ∧
    (∀ j, 4 < j → j ≤ 8 →
      -2147483647 < range_sum [-2, 1, -3, 4, -1, 2, 1, -5, 4] (4 + 1) (j + 1) ∧
        range_sum [-2, 1, -3, 4, -1, 2, 1, -5, 4] (4 + 1) (j + 1) ≤ 2147483647) ∧
    ∃ b e, maximum_subarray_crossing [-2, 1, -3, 4, -1, 2, 1, -5, 4] 0 4 8 = .ok (b, e) ∧
      0 ≤ b ∧ b ≤ 4 ∧ 4 < e - 1 ∧ e - 1 ≤ 8 ∧
      ∀ i j, 0 ≤ i → i ≤ 4 → 4 < j → j ≤ 8 →
        range_sum [-2, 1, -3, 4, -1, 2, 1, -5, 4] i (j + 1) ≤
          range_sum [-2, 1, -3, 4, -1, 2, 1, -5, 4] b e :=
  have hleft : ∀ i, 0 ≤ i → i ≤ 4 →
      -2147483647 < range_sum [-2, 1, -3, 4, -1, 2, 1, -5, 4] i (4 + 1) ∧
        range_sum [-2, 1, -3, 4, -1, 2, 1, -5, 4] i (4 + 1) ≤ 2147483647 := by
    intro i hi1 hi2
    interval_cases i <;> decide
  have hright : ∀ j, 4 < j → j ≤ 8 →
      -2147483647 < range_sum [-2, 1, -3, 4, -1, 2, 1, -5, 4] (4 + 1) (j + 1) ∧
        range_sum [-2, 1, -3, 4, -1, 2, 1, -5, 4] (4 + 1) (j + 1) ≤ 2147483647 := by
    intro j hj1 hj2
    interval_cases j <;> decide
  ⟨by decide, by decide, by decide, hleft, hright,
    maximum_subarray_crossing_best [-2, 1, -3, 4, -1, 2, 1, -5, 4] 0 4 8
      (by decide) (by decide) (by decide) hleft hright⟩

/-- Claim C17, as the code behaves: with `low ≤ middle < high < n`, every sum
of `input[i..middle]`, `low ≤ i ≤ middle`, an `int` (no overflow) and some such
sum greater than `-2147483647`, the returned `b` is the largest index in
`[low, middle]` for which the sum of `input[i..middle]` is maximal. -/
theorem crossing_left_scan_nearest (input : List int32) (low middle high : Nat)
    (h1 : low ≤ middle) (h2 : middle < high) (h3 : high < input.length)
    (hfit : ∀ i, low ≤ i → i ≤ middle → range_fits input i (middle + 1))
    (hsome : ∃ i, low ≤ i ∧ i ≤ middle ∧ -2147483647 < range_sum input i (middle + 1)) :
    ∃ b e, maximum_subarray_crossing input low middle high = .ok (b, e) ∧
      low ≤ b ∧ b ≤ middle ∧
      (∀ i, low ≤ i → i ≤ middle →
        range_sum input i (middle + 1) ≤ range_sum input b (middle + 1)) ∧
      (∀ i, b < i → i ≤ middle →
        range_sum input i (middle + 1) < range_sum input b (middle + 1)) := by
  have hL : ∀ i, low ≤ i → i ≤ middle →
      machine_sum input i (middle + 1) = range_sum input i (middle + 1) :=
    fun i hi1 hi2 => machine_sum_of_fits input i (middle + 1) (hfit i hi1 hi2)
  obtain ⟨l, r, hrun, ⟨_, hl⟩, _⟩ := crossing_run input low middle high h1 h2 h3
  refine ⟨l.2.2, r.2.2 + 1, hrun, ?_⟩
  rcases hl with ⟨_, _, hl3⟩ | ⟨hl1, hl2, hl3, _, hl5, hl6⟩
  · obtain ⟨i, hi1, hi2, hi3⟩ := hsome
    have := hl3 i hi1 hi2
    have := hL i hi1 hi2
    omega
  · refine ⟨hl1, hl2, ?_, ?_⟩
    · intro i hi1 hi2
      have := hl5 i hi1 hi2
      have := hL i hi1 hi2
      have := hL l.2.2 hl1 hl2
      omega
    · intro i hi1 hi2
      have := hl6 i hi1 hi2
      have := hL i (by omega) hi2
      have := hL l.2.2 hl1 hl2
      omega

theorem crossing_left_scan_nearest_witness :
    (0 ≤ 1) ∧ (1 < 2) ∧ (2 < ([0, 0, 0] : List int32).length) ∧
    (∀ i, 0 ≤ i → i ≤ 1 → range_fits [0, 0, 0] i (1 + 1)) ∧
    (∃ i, 0 ≤ i ∧ i ≤ 1 ∧ -2147483647 < range_sum [0, 0, 0] i (1 + 1)) ∧
    ∃ b e, maximum_subarray_crossing [0, 0, 0] 0 1 2 = .ok (b, e) ∧
      0 ≤ b ∧ b ≤ 1 ∧
      (∀ i, 0 ≤ i → i ≤ 1 →
        range_sum [0, 0, 0] i (1 + 1) ≤ range_sum [0, 0, 0] b (1 + 1)) ∧
      (∀ i, b < i → i ≤ 1 →
        range_sum [0, 0, 0] i (1 + 1) < range_sum [0, 0, 0] b (1 + 1)) :=
  have hfit : ∀ i, 0 ≤ i → i ≤ 1 → range_fits [0, 0, 0] i (1 + 1) := by
    intro i hi1 hi2
    interval_cases i <;> decide
  ⟨by decide, by decide, by decide, hfit, ⟨1, by decide, by decide, by decide⟩,
    crossing_left_scan_nearest [0, 0, 0] 0 1 2 (by decide) (by decide) (by decide) hfit
      ⟨1, by decide, by decide, by decide⟩⟩

/-! ## The combine step -/

theorem sum_gt_eq (input : List int32) (p q : Nat × Nat) (sp sq : int32)
    (hp : accumulate input p.1 p.2 0 = .ok sp) (hq : accumulate input q.1 q.2 0 = .ok sq) :
    sum_gt input p q = .ok (decide (sp > sq)) := by
  unfold sum_gt
  rw [hp, hq]
  rfl

/-- The combine step on three candidates whose sums can be computed. -/
theorem combine_eq (input : List int32) (l r c : Nat × Nat) (sl sr sc : int32)
    (hl : accumulate input l.1 l.2 0 = .ok sl) (hr : accumulate input r.1 r.2 0 = .ok sr)
    (hc : accumulate input c.1 c.2 0 = .ok sc) :
    combine input l r c =
      .ok (if sl > sr ∧ sl > sc then l else if sr > sl ∧ sr > sc then r else c) := by
  unfold combine
  rw [sum_gt_eq input l r sl sr hl hr, sum_gt_eq input l c sl sc hl hc,
    sum_gt_eq input r l sr sl hr hl, sum_gt_eq input r c sr sc hr hc]
  by_cases h1 : sl > sr <;> by_cases h2 : sl > sc <;> by_cases h3 : sr > sl <;>
    by_cases h4 : sr > sc <;> simp [h1, h2, h3, h4, bind, Except.bind, pure, Except.pure]

theorem ofInt_gt_of_fits (a b : Int) (ha : -2147483648 ≤ a ∧ a ≤ 2147483647)
    (hb : -2147483648 ≤ b ∧ b ≤ 2147483647) :
    int32.ofInt a > int32.ofInt b ↔ a > b := by
  show wrap32 a > wrap32 b ↔ a > b
  rw [wrap32_of_fits a ha, wrap32_of_fits b hb]

/-- Claim C14, as the code behaves, for candidates whose sums are `int`s (no
overflow): the entirely-left pair is returned when its sum is greater than
both other sums, the entirely-right pair when its sum is greater than both
other sums, and the crossing pair when its sum is at least both other
sums. -/
theorem combine_prefers_crossing (input : List int32) (l r c : Nat × Nat)
    (hl : l.1 ≤ l.2 ∧ l.2 ≤ input.length) (hr : r.1 ≤ r.2 ∧ r.2 ≤ input.length)
    (hc : c.1 ≤ c.2 ∧ c.2 ≤ input.length)
    (hlfit : range_fits input l.1 l.2) (hrfit : range_fits input r.1 r.2)
    (hcfit : range_fits input c.1 c.2) :
    (range_sum input l.1 l.2 > range_sum input r.1 r.2 ∧
        range_sum input l.1 l.2 > range_sum input c.1 c.2 →
      combine input l r c = .ok l) ∧
    (range_sum input r.1 r.2 > range_sum input l.1 l.2 ∧
        range_sum input r.1 r.2 > range_sum input c.1 c.2 →
      combine input l r c = .ok r) ∧
    (range_sum input c.1 c.2 ≥ range_sum input l.1 l.2 ∧
        range_sum input c.1 c.2 ≥ range_sum input r.1 r.2 →
      combine input l r c = .ok c) := by
  have h := combine_eq input l r c _ _ _
    (accumulate_eq input l.1 l.2 hl.1 hl.2) (accumulate_eq input r.1 r.2 hr.1 hr.2)
    (accumulate_eq input c.1 c.2 hc.1 hc.2)
  have hlr := ofInt_gt_of_fits _ _ hlfit hrfit
  have hlc := ofInt_gt_of_fits _ _ hlfit hcfit
  have hrl := ofInt_gt_of_fits _ _ hrfit hlfit
  have hrc := ofInt_gt_of_fits _ _ hrfit hcfit
  refine ⟨?_, ?_, ?_⟩
  · intro hgt
    rw [h, if_pos ⟨hlr.mpr hgt.1, hlc.mpr hgt.2⟩]
  · intro hgt
    rw [h, if_neg (fun hcon => by have := hlr.mp hcon.1; omega),
      if_pos ⟨hrl.mpr hgt.1, hrc.mpr hgt.2⟩]
  · intro hge
    rw [h, if_neg (fun hcon => by have := hlc.mp hcon.2; omega),
      if_neg (fun hcon => by have := hrc.mp hcon.2; omega)]

theorem combine_prefers_crossing_witness :
    ((0 : Nat) ≤ 1 ∧ 1 ≤ ([1, 0] : List int32).length) ∧
    ((1 : Nat) ≤ 2 ∧ 2 ≤ ([1, 0] : List int32).length) ∧
    ((0 : Nat) ≤ 2 ∧ 2 ≤ ([1, 0] : List int32).length) ∧
    range_fits [1, 0] 0 1 ∧ range_fits [1, 0] 1 2 ∧ range_fits [1, 0] 0 2 ∧
    (range_sum [1, 0] 0 2 ≥ range_sum [1, 0] 0 1 ∧
      range_sum [1, 0] 0 2 ≥ range_sum [1, 0] 1 2) ∧
    combine [1, 0] (0, 1) (1, 2) (0, 2) = .ok (0, 2) :=
  ⟨by decide, by decide, by decide, by decide, by decide, by decide, by decide,
    (combine_prefers_crossing [1, 0] (0, 1) (1, 2) (0, 2)
      (by decide) (by decide) (by decide) (by decide) (by decide) (by decide)).2.2
      (by decide)⟩

/-! ## `maximum_subarray_recursive` -/

theorem recursive_base (input : List int32) (fuel low : Nat) :
    maximum_subarray_recursive input fuel low low = .ok (low, low + 1) := by
  cases fuel <;> simp [maximum_subarray_recursive]

theorem recursive_zero (input : List int32) (low high : Nat) (h : low ≠ high) :
    maximum_subarray_recursive input 0 low high = .error .out_of_fuel := by
  simp [maximum_subarray_recursive, h]

theorem recursive_succ (input : List int32) (fuel low high : Nat) (h : low ≠ high) :
    maximum_subarray_recursive input (fuel + 1) low high =
      (do
        let entirely_left ← maximum_subarray_recursive input fuel low ((low + high) / 2)
        let entirely_right ←
          maximum_subarray_recursive input fuel ((low + high) / 2 + 1) high
        let crossing ← maximum_subarray_crossing input low ((low + high) / 2) high
        combine input entirely_left entirely_right crossing) := by
  rw [maximum_subarray_recursive]
  simp [h]

theorem recursive_wf_base (input : List int32) (low : Nat) :
    maximum_subarray_recursive_wf input low low = .ok (low, low + 1) := by
  rw [maximum_subarray_recursive_wf]
  simp

theorem recursive_wf_step (input : List int32) (low high : Nat) (h : low < high) :
    maximum_subarray_recursive_wf input low high =
      (do
        let entirely_left ← maximum_subarray_recursive_wf input low ((low + high) / 2)
        let entirely_right ←
          maximum_subarray_recursive_wf input ((low + high) / 2 + 1) high
        let crossing ← maximum_subarray_crossing input low ((low + high) / 2) high
        combine input entirely_left entirely_right crossing) := by
  rw [maximum_subarray_recursive_wf]
  simp [Nat.ne_of_lt h, h]

/-- Claim C19: when every non-empty contiguous range of the input has a sum
greater than `-2147483647` and `low ≤ high < n`, `maximum_subarray_recursive`
(with at least `high - low` units of depth) returns a pair `(b, e)` with
`low ≤ b < e ≤ high + 1`. -/
theorem maximum_subarray_recursive_in_range (input : List int32) (fuel low high : Nat)
    (H : ∀ i j, i < j → j ≤ input.length → -2147483647 < range_sum input i j)
    (h1 : low ≤ high) (h2 : high < input.length) (hf : high - low ≤ fuel) :
    ∃ b e, maximum_subarray_recursive input fuel low high = .ok (b, e) ∧
      low ≤ b ∧ b < e ∧ e ≤ high + 1 := by
  induction fuel generalizing low high with
  | zero =>
    have hlh : low = high := by omega
    subst hlh
    exact ⟨low, low + 1, recursive_base input 0 low, le_refl _, Nat.lt_succ_self _, le_refl _⟩
  | succ f ih =>
    by_cases hlh : low = high
    · subst hlh
      exact ⟨low, low + 1, recursive_base input _ low, le_refl _, Nat.lt_succ_self _,
        le_refl _⟩
    · have hlt : low < high := by omega
      have hm1 : low ≤ (low + high) / 2 := by omega
      have hm2 : (low + high) / 2 < high := by omega
      obtain ⟨lb, le, hL, hL1, hL2, hL3⟩ :=
        ih low ((low + high) / 2) hm1 (by omega) (by omega)
      obtain ⟨rb, re, hR, hR1, hR2, hR3⟩ :=
        ih ((low + high) / 2 + 1) high (by omega) h2 (by omega)
      obtain ⟨l, r, hC, ⟨_, hl⟩, ⟨_, hr⟩⟩ :=
        crossing_run input low ((low + high) / 2) high hm1 hm2 h2
      rcases hl with ⟨_, _, hl3⟩ | ⟨hl1, hl2, _, _, _, _⟩
      · have := hl3 ((low + high) / 2) hm1 (le_refl _)
        have := H ((low + high) / 2) ((low + high) / 2 + 1) (by omega) (by omega)
        rw [range_sum_single input _ (by omega)] at this
        rw [machine_sum_single input _ (by omega)] at *
        omega
      rcases hr with ⟨_, _, hr3⟩ | ⟨hr1, hr2, _, _, _, _⟩
      · have := hr3 ((low + high) / 2 + 1) (by omega) (by omega)
        have := H ((low + high) / 2 + 1) ((low + high) / 2 + 1 + 1) (by omega) (by omega)
        rw [range_sum_single input _ (by omega)] at this
        rw [machine_sum_single input _ (by omega)] at *
        omega
      have hcomb := combine_eq input (lb, le) (rb, re) (l.2.2, r.2.2 + 1) _ _ _
        (accumulate_eq input lb le (by omega) (by omega))
        (accumulate_eq input rb re (by omega) (by omega))
        (accumulate_eq input l.2.2 (r.2.2 + 1) (by omega) (by omega))
      rw [recursive_succ input f low high hlh, hL, hR, hC]
      simp only [bind, Except.bind]
      rw [hcomb]
      split
      · exact ⟨lb, le, rfl, hL1, hL2, by omega⟩
      · split
        · exact ⟨rb, re, rfl, by omega, hR2, hR3⟩
        · exact ⟨l.2.2, r.2.2 + 1, rfl, hl1, by omega, by omega⟩

theorem maximum_subarray_recursive_in_range_witness :
    (∀ i j, i < j → j ≤ ([1, 2] : List int32).length →
      -2147483647 < range_sum [1, 2] i j) ∧
    (0 ≤ 1) ∧ (1 < ([1, 2] : List int32).length) ∧ (1 - 0 ≤ 1) ∧
    ∃ b e, maximum_subarray_recursive [1, 2] 1 0 1 = .ok (b, e) ∧
      0 ≤ b ∧ b < e ∧ e ≤ 1 + 1 :=
  have H : ∀ i j, i < j → j ≤ ([1, 2] : List int32).length →
      -2147483647 < range_sum [1, 2] i j := by
    intro i j hij hj
    have hj2 : j ≤ 2 := hj
    have hc : (i = 0 ∧ j = 1) ∨ (i = 0 ∧ j = 2) ∨ (i = 1 ∧ j = 2) := by omega
    rcases hc with ⟨hi, hj⟩ | ⟨hi, hj⟩ | ⟨hi, hj⟩ <;> subst hi <;> subst hj <;> decide
  ⟨H, by decide, by decide, by decide,
    maximum_subarray_recursive_in_range [1, 2] 1 0 1 H (by decide) (by decide) (by decide)⟩

/-! ## Termination of `maximum_subarray_recursive` -/

theorem sum_gt_cases (input : List int32) (p q : Nat × Nat) :
    (∃ v, sum_gt input p q = .ok v) ∨ sum_gt input p q = .error .undefined_behaviour := by
  unfold sum_gt accumulate
  by_cases hp : p.1 ≤ p.2 ∧ p.2 ≤ input.length
  · by_cases hq : q.1 ≤ q.2 ∧ q.2 ≤ input.length
    · left
      rw [if_pos hp, if_pos hq]
      exact ⟨_, rfl⟩
    · right
      rw [if_pos hp, if_neg hq]
      rfl
  · right
    rw [if_neg hp]
    rfl

/-- The combine step does not recurse: it returns or ends in undefined
behaviour. -/
theorem combine_cases (input : List int32) (l r c : Nat × Nat) :
    (∃ v, combine input l r c = .ok v) ∨
      combine input l r c = .error .undefined_behaviour := by
  unfold combine
  rcases sum_gt_cases input l r with ⟨b1, h1⟩ | h1
  · rcases sum_gt_cases input l c with ⟨b2, h2⟩ | h2
    · rcases sum_gt_cases input r l with ⟨b3, h3⟩ | h3
      · rcases sum_gt_cases input r c with ⟨b4, h4⟩ | h4
        · left
          rw [h1, h2, h3, h4]
          cases b1 <;> cases b2 <;> cases b3 <;> cases b4 <;> exact ⟨_, rfl⟩
        · rw [h1, h2, h3, h4]
          cases b1 <;> cases b2 <;> cases b3 <;>
            first
              | exact Or.inl ⟨_, rfl⟩
              | exact Or.inr rfl
      · rw [h1, h2, h3]
        cases b1 <;> cases b2 <;>
          first
            | exact Or.inl ⟨_, rfl⟩
            | exact Or.inr rfl
    · rw [h1, h2]
      cases b1
      · rcases sum_gt_cases input r l with ⟨b3, h3⟩ | h3
        · rcases sum_gt_cases input r c with ⟨b4, h4⟩ | h4
          · rw [h3, h4]
            cases b3 <;> cases b4 <;> exact Or.inl ⟨_, rfl⟩
          · rw [h3, h4]
            cases b3 <;>
              first
                | exact Or.inl ⟨_, rfl⟩
                | exact Or.inr rfl
        · rw [h3]
          exact Or.inr rfl
      · exact Or.inr rfl
  · rw [h1]
    exact Or.inr rfl

/-- With `low ≤ high < n` and at least `high - low` units of depth the
recursion does not exhaust its depth. -/
theorem recursive_depth_enough (input : List int32) :
    ∀ fuel low high, low ≤ high → high < input.length → high - low ≤ fuel →
      maximum_subarray_recursive input fuel low high ≠ .error .out_of_fuel := by
  intro fuel
  induction fuel with
  | zero =>
    intro low high h1 _ hf
    have hlh : low = high := by omega
    subst hlh
    rw [recursive_base]
    intro hc
    cases hc
  | succ f ih =>
    intro low high h1 h2 hf
    by_cases hlh : low = high
    · subst hlh
      rw [recursive_base]
      intro hc
      cases hc
    · have hm1 : low ≤ (low + high) / 2 := by omega
      have hm2 : (low + high) / 2 < high := by omega
      have hL := ih low ((low + high) / 2) hm1 (by omega) (by omega)
      have hR := ih ((low + high) / 2 + 1) high (by omega) h2 (by omega)
      obtain ⟨l, r, hC, _, _⟩ := crossing_run input low ((low + high) / 2) high hm1 hm2 h2
      rw [recursive_succ input f low high hlh, hC]
      cases hl : maximum_subarray_recursive input f low ((low + high) / 2) with
      | error e =>
        intro hc
        rw [hl] at hL
        simp only [bind, Except.bind] at hc
        exact hL hc
      | ok lv =>
        cases hr : maximum_subarray_recursive input f ((low + high) / 2 + 1) high with
        | error e =>
          intro hc
          rw [hr] at hR
          simp only [bind, Except.bind] at hc
          exact hR hc
        | ok rv =>
          simp only [bind, Except.bind]
          rcases combine_cases input lv rv (l.2.2, r.2.2 + 1) with ⟨v, hv⟩ | hv
          · rw [hv]
            intro hc
            cases hc
          · rw [hv]
            intro hc
            cases hc

/-- With `low ≤ high` and at least `high - low` units of depth the bounded
recursion computes what the well-founded recursion computes. -/
theorem recursive_eq_wf (input : List int32) :
    ∀ fuel low high, low ≤ high → high - low ≤ fuel →
      maximum_subarray_recursive input fuel low high =
        maximum_subarray_recursive_wf input low high := by
  intro fuel
  induction fuel with
  | zero =>
    intro low high h1 hf
    have hlh : low = high := by omega
    subst hlh
    rw [recursive_base, recursive_wf_base]
  | succ f ih =>
    intro low high h1 hf
    by_cases hlh : low = high
    · subst hlh
      rw [recursive_base, recursive_wf_base]
    · have hlt : low < high := by omega
      rw [recursive_succ input f low high hlh, recursive_wf_step input low high hlt,
        ih low ((low + high) / 2) (by omega) (by omega),
        ih ((low + high) / 2 + 1) high (by omega) (by omega)]

/-- Claim C18: for `low ≤ high < n` the recursion of
`maximum_subarray_recursive` terminates.  When `low < high` the midpoint lies
in `[low, high)` and both recursive calls are on ranges with a smaller
`high - low`; the function defined by well-founded recursion on `high - low`
is what every run with at least `high - low` units of depth computes, and the
run does not exhaust its depth; a single-index range returns `(low, low + 1)`
with no depth at all. -/
theorem maximum_subarray_recursive_terminates (input : List int32) (low high : Nat)
    (h1 : low ≤ high) (h2 : high < input.length) :
    (low < high →
      low ≤ (low + high) / 2 ∧ (low + high) / 2 < high ∧
      (low + high) / 2 - low < high - low ∧
      high - ((low + high) / 2 + 1) < high - low) ∧
    (∀ fuel, high - low ≤ fuel →
      maximum_subarray_recursive input fuel low high =
        maximum_subarray_recursive_wf input low high) ∧
    maximum_subarray_recursive_wf input low high ≠ .error .out_of_fuel ∧
    maximum_subarray_recursive input 0 low low = .ok (low, low + 1) ∧
    maximum_subarray_recursive_wf input low low = .ok (low, low + 1) := by
  refine ⟨?_, ?_, ?_, recursive_base input 0 low, recursive_wf_base input low⟩
  · intro hlt
    omega
  · intro fuel hf
    exact recursive_eq_wf input fuel low high h1 hf
  · rw [← recursive_eq_wf input (high - low) low high h1 (le_refl _)]
    exact recursive_depth_enough input (high - low) low high h1 h2 (le_refl _)

theorem maximum_subarray_recursive_terminates_witness :
    (0 ≤ 2) ∧ (2 < ([1, -5, 1] : List int32).length) ∧
    (0 < 2 →
      0 ≤ (0 + 2) / 2 ∧ (0 + 2) / 2 < 2 ∧
      (0 + 2) / 2 - 0 < 2 - 0 ∧
      2 - ((0 + 2) / 2 + 1) < 2 - 0) ∧
    (∀ fuel, 2 - 0 ≤ fuel →
      maximum_subarray_recursive [1, -5, 1] fuel 0 2 =
        maximum_subarray_recursive_wf [1, -5, 1] 0 2) ∧
    maximum_subarray_recursive_wf [1, -5, 1] 0 2 ≠ .error .out_of_fuel ∧
    maximum_subarray_recursive [1, -5, 1] 0 0 0 = .ok (0, 0 + 1) ∧
    maximum_subarray_recursive_wf [1, -5, 1] 0 0 = .ok (0, 0 + 1) :=
  ⟨by decide, by decide,
    maximum_subarray_recursive_terminates [1, -5, 1] 0 2 (by decide) (by decide)⟩

end subarray
